import Mathlib

/-!
A shallow embedding of the splitting grid-search measurement engine of
`splitwavepy` (`core/data.py`, `core/pair.py`, `core/measure.py`,
`eigval/eigenM.py`), with theorems checking the statements of its
natural-language specification against the code.

Conventions used throughout:
* numpy double arrays become `List ℚ` (or `List ℝ` where trigonometry is
  involved); the rounding behaviour of machine floats is not modelled.
* a Python call that can raise becomes an `Option`/`Except` value
  (`none`/`.error` = the call raises).
* the module `core/core.py` is not part of the source tree at hand (only
  its callers are), so each of its functions used here is modelled from
  the specification text; every such definition carries a doc comment
  starting with `Modelled from the spec:`.
-/

namespace Splitwave

/-! ### Window (`core/data.py`, class `Window`) -/

/-- `Window`: a sub-range of samples placed relative to the trace centre.
`width` is the window length in samples, `offset` the signed offset of the
window centre from the trace centre, `tukey` an optional taper fraction.
These are exactly the three attributes set by `Window.__init__`. -/
structure Window where
  width : ℕ
  offset : ℤ
  tukey : Option ℚ
deriving DecidableEq

/-- `Window.__init__`: rejects an even `width`
("width must be an odd integer"). -/
def mkWindow (width : ℕ) (offset : ℤ) (tukey : Option ℚ) : Option Window :=
  if width % 2 ≠ 1 then none else some ⟨width, offset, tukey⟩

/-- The integer computed by `Window.start` once the odd-`samps` guard has
passed: `centre + offset - hw` with `centre = int(samps/2)`,
`hw = int(width/2)`. -/
def Window.startI (w : Window) (samps : ℕ) : ℤ :=
  ((samps / 2 : ℕ) : ℤ) + w.offset - ((w.width / 2 : ℕ) : ℤ)

/-- The integer computed by `Window.end` once the odd-`samps` guard has
passed: `centre + offset + hw` (the source method is called `end`, a
reserved word here). -/
def Window.endI (w : Window) (samps : ℕ) : ℤ :=
  ((samps / 2 : ℕ) : ℤ) + w.offset + ((w.width / 2 : ℕ) : ℤ)

/-- `Window.asarray`: materialises the window as a sample array of length
`samps`.  The source first evaluates `self.end(samps)` (which raises when
`samps` is even), then the explicit range guards `end > samps` /
`start < 0`, in that order.  A call that passes the guards then evaluates
`signal.tukey(self.width, alpha=alpha)` (data.py line 299) — but `data.py`
never imports `signal` (its only imports are `core` and `numpy`), so that
line raises `NameError` on every in-range window: the function never
reaches the array assignment `array[start:end+1] = tukey` and never
returns an array. -/
def Window.asarray (w : Window) (samps : ℕ) : Except String (List ℚ) :=
  if samps % 2 ≠ 1 then .error "samps must be odd to have definite centre"
  else if (samps : ℤ) < w.endI samps then .error "Window exceeds max range"
  else if w.startI samps < 0 then .error "Window exceeds min range"
  else .error "NameError: signal is not defined"

/-- C6 (counterexample): a window whose start and end samples both lie
inside `[0, N-1]` (width `3`, offset `0`, on a `5`-sample trace: start `1`,
end `3`) still fails to materialise — `asarray` passes both range guards
and then raises `NameError`, because `data.py` calls `signal.tukey`
without ever importing `signal`; and a window with `end = N` (width `5`,
offset `1`, on a `5`-sample trace), which the claim places out of range,
passes the `end > samps` guard and fails with the same `NameError` rather
than a window-out-of-range error. -/
theorem window_in_range_asarray_still_fails :
    ((0 : ℤ) ≤ (⟨3, 0, none⟩ : Window).startI 5 ∧
      (⟨3, 0, none⟩ : Window).endI 5 ≤ (5 : ℤ) - 1 ∧
      (⟨3, 0, none⟩ : Window).asarray 5 = .error "NameError: signal is not defined") ∧
    ((5 : ℤ) - 1 < (⟨5, 1, none⟩ : Window).endI 5 ∧
      (⟨5, 1, none⟩ : Window).asarray 5 = .error "NameError: signal is not defined") :=
  ⟨⟨by decide, by decide, rfl⟩, by decide, rfl⟩

/-- C6 (amended): for a `Window` of width `w` and offset `o` on a trace of
odd length `N`, the start sample is `⌊N/2⌋ − ⌊w/2⌋ + o` and the end sample
is `⌊N/2⌋ + ⌊w/2⌋ + o`; `asarray` raises the max-range error exactly when
`end > N` and the min-range error exactly when `end ≤ N` and `start < 0`
(so `end = N` passes both guards), and every call that passes the guards —
in-range windows included — raises `NameError` (`data.py` never imports
`signal`): `asarray` never returns an array. -/
theorem window_bounds_and_failure_modes (w : Window) (N : ℕ)
    (hN : N % 2 = 1) :
    w.startI N = ((N / 2 : ℕ) : ℤ) - ((w.width / 2 : ℕ) : ℤ) + w.offset ∧
    w.endI N = ((N / 2 : ℕ) : ℤ) + ((w.width / 2 : ℕ) : ℤ) + w.offset ∧
    (w.asarray N = .error "Window exceeds max range" ↔ (N : ℤ) < w.endI N) ∧
    (w.asarray N = .error "Window exceeds min range" ↔
      w.endI N ≤ (N : ℤ) ∧ w.startI N < 0) ∧
    (w.endI N ≤ (N : ℤ) → 0 ≤ w.startI N →
      w.asarray N = .error "NameError: signal is not defined") ∧
    (∀ a : List ℚ, w.asarray N ≠ .ok a) := by
  refine ⟨by unfold Window.startI; ring, by unfold Window.endI; ring, ?_⟩
  rcases lt_or_le (N : ℤ) (w.endI N) with hmax | hmax
  · have he : w.asarray N = .error "Window exceeds max range" := by
      unfold Window.asarray
      rw [if_neg (by omega), if_pos hmax]
    exact ⟨iff_of_true he hmax,
      iff_of_false (by rw [he]; simp) (by omega),
      fun h1 _ => absurd h1 (by omega),
      fun a => by rw [he]; exact fun hcon => Except.noConfusion hcon⟩
  · rcases lt_or_le (w.startI N) 0 with hmin | hmin
    · have he : w.asarray N = .error "Window exceeds min range" := by
        unfold Window.asarray
        rw [if_neg (by omega), if_neg (by omega), if_pos hmin]
      exact ⟨iff_of_false (by rw [he]; simp) (by omega),
        iff_of_true he ⟨hmax, hmin⟩,
        fun _ h2 => absurd h2 (by omega),
        fun a => by rw [he]; exact fun hcon => Except.noConfusion hcon⟩
    · have he : w.asarray N = .error "NameError: signal is not defined" := by
        unfold Window.asarray
        rw [if_neg (by omega), if_neg (by omega), if_neg (by omega)]
      exact ⟨iff_of_false (by rw [he]; simp) (by omega),
        iff_of_false (by rw [he]; simp) (by omega),
        fun _ _ => he,
        fun a => by rw [he]; exact fun hcon => Except.noConfusion hcon⟩

/-- Witness for C6 (amended) at a concrete input: trace length `5`, window
of width `3` at offset `0` (start `1`, end `3`, both inside `[0, 4]`, yet
`asarray` fails with the `NameError`). -/
theorem window_bounds_and_failure_modes_witness :
    5 % 2 = 1 ∧
    ((⟨3, 0, none⟩ : Window).startI 5 = ((5 / 2 : ℕ) : ℤ) - ((3 / 2 : ℕ) : ℤ) + 0 ∧
     (⟨3, 0, none⟩ : Window).endI 5 = ((5 / 2 : ℕ) : ℤ) + ((3 / 2 : ℕ) : ℤ) + 0 ∧
     ((⟨3, 0, none⟩ : Window).asarray 5 = .error "Window exceeds max range" ↔
       (5 : ℤ) < (⟨3, 0, none⟩ : Window).endI 5) ∧
     ((⟨3, 0, none⟩ : Window).asarray 5 = .error "Window exceeds min range" ↔
       (⟨3, 0, none⟩ : Window).endI 5 ≤ (5 : ℤ) ∧ (⟨3, 0, none⟩ : Window).startI 5 < 0) ∧
     ((⟨3, 0, none⟩ : Window).endI 5 ≤ (5 : ℤ) → 0 ≤ (⟨3, 0, none⟩ : Window).startI 5 →
       (⟨3, 0, none⟩ : Window).asarray 5 = .error "NameError: signal is not defined") ∧
     (∀ a : List ℚ, (⟨3, 0, none⟩ : Window).asarray 5 ≠ .ok a)) :=
  ⟨rfl, window_bounds_and_failure_modes ⟨3, 0, none⟩ 5 rfl⟩

/-! ### Value equality (`Pair.__eq__`, `Measure.__eq__`, `Window.__eq__`) -/

/-- The attribute-name list of a `Window` instance (`self.__dict__` keys):
`Window.__init__` sets exactly `width`, `offset` and `tukey`, and nothing
ever deletes or adds attributes, so every instance has this same set. -/
def Window.attrNames (_w : Window) : List String := ["width", "offset", "tukey"]

/-- `Window.__eq__`: compares the classes (always equal for two `Window`
instances) and the attribute-name sets, then returns `True`.  The attribute
values are never inspected. -/
def windowEqB (a b : Window) : Bool := a.attrNames == b.attrNames

/-- The attributes a `Pair` instance carries after `Pair.__init__` /
`Data.__init__`: the two traces, the sampling interval, the geometry tag,
the component basis, the component labels, the unit label and the window.
(The attribute `Data`, set to `None` by `Pair.__init__`, is identical on
every instance and is therefore omitted.) -/
structure PairObj where
  x : List ℚ
  y : List ℚ
  delta : ℚ
  geom : String
  cmpvecs : (ℚ × ℚ) × (ℚ × ℚ)
  cmplabels : List String
  units : String
  window : Window
deriving DecidableEq

/-- `Pair.__eq__`: same class, same attribute keys, then
`np.all(self.__dict__[k] == other.__dict__[k])` for every attribute.  For
the `window` attribute the `==` dispatches to `Window.__eq__`
(`windowEqB`), which ignores the window's values. -/
def pairEq (p q : PairObj) : Bool :=
  (p.x == q.x) && (p.y == q.y) && (p.delta == q.delta) && (p.geom == q.geom) &&
  (p.cmpvecs == q.cmpvecs) && (p.cmplabels == q.cmplabels) &&
  (p.units == q.units) && windowEqB p.window q.window

/-- A keyword-argument value as stored in the `kwargs` backup dictionary
of `Measure.__init__` (`self.kwargs = kwargs`): the measurement layer
receives numeric tuples and arrays (lag and angle grid specs, correction
tuples) and string values (the name). -/
inductive PyKwVal where
  | nums : List ℚ → PyKwVal
  | str : String → PyKwVal
deriving DecidableEq

/-- The attributes a `Measure` instance carries after `Measure.__init__`:
the data pair, the objective function (a function object, compared by
identity, modelled as a tag), the two grid axes with the sample-lag grid,
the optional corrections, the name and the raw keyword-argument dictionary
backed up by `self.kwargs = kwargs` (modelled as an association list from
keyword name to value; Python compares the dicts by value).  (The
name-mangled `_Measure__rcvcorr`/`_Measure__srccorr` sample-count tuples
are derivable from `rcvcorr`/`srccorr` and the pair's `delta` and are
therefore not separate fields.) -/
structure MeasObj where
  data : PairObj
  func : String
  degs : List ℚ
  lags : List ℚ
  slags : List ℤ
  rcvcorr : Option (ℚ × ℚ)
  srccorr : Option (ℚ × ℚ)
  name : String
  kwargs : List (String × PyKwVal)
deriving DecidableEq

/-- `Measure.__eq__`: same class, same attribute keys, then
`np.all(self.__dict__[k] == other.__dict__[k])` for every attribute — the
backup `kwargs` dictionary included; for the `data` attribute the `==`
dispatches to `Pair.__eq__`. -/
def measEq (m n : MeasObj) : Bool :=
  pairEq m.data n.data && (m.func == n.func) && (m.degs == n.degs) &&
  (m.lags == n.lags) && (m.slags == n.slags) && (m.rcvcorr == n.rcvcorr) &&
  (m.srccorr == n.srccorr) && (m.name == n.name) && (m.kwargs == n.kwargs)

/-- A concrete `Pair` instance. -/
def pairA : PairObj :=
  ⟨[1, 2, 3], [0, 0, 0], 1, "geo", ((1, 0), (0, 1)), ["North", "East"], "s", ⟨3, 0, none⟩⟩

/-- The same `Pair` instance except for the window, which differs in width,
offset and taper fraction. -/
def pairB : PairObj :=
  ⟨[1, 2, 3], [0, 0, 0], 1, "geo", ((1, 0), (0, 1)), ["North", "East"], "s", ⟨5, 1, some 1⟩⟩

/-- C9 counterexample: `pairA` and `pairB` agree on every attribute except
the window (widths 3 vs 5, offsets 0 vs 1, tapers none vs 1), yet
`Pair.__eq__` returns `True` — the window attribute is not compared
element-wise, contradicting the claim that equality holds only when every
attribute including the window is element-wise equal. -/
theorem pair_eq_ignores_window_values :
    pairEq pairA pairB = true ∧ pairA.window ≠ pairB.window := by decide

/-- C9 (amended): `Pair.__eq__` returns `True` iff every attribute other
than the window is element-wise equal, and `Measure.__eq__` returns `True`
iff the nested pair satisfies the same condition and every remaining
attribute — the backup `kwargs` dictionary included — is equal; the
`Window`-valued attribute is compared only through `Window.__eq__` and
never constrains the result. -/
theorem pair_meas_eq_iff (p q : PairObj) (m n : MeasObj) :
    (pairEq p q = true ↔
      (p.x = q.x ∧ p.y = q.y ∧ p.delta = q.delta ∧ p.geom = q.geom ∧
       p.cmpvecs = q.cmpvecs ∧ p.cmplabels = q.cmplabels ∧ p.units = q.units)) ∧
    (measEq m n = true ↔
      (pairEq m.data n.data = true ∧ m.func = n.func ∧ m.degs = n.degs ∧
       m.lags = n.lags ∧ m.slags = n.slags ∧ m.rcvcorr = n.rcvcorr ∧
       m.srccorr = n.srccorr ∧ m.name = n.name ∧ m.kwargs = n.kwargs)) := by
  constructor
  · simp [pairEq, windowEqB, Window.attrNames, and_assoc]
  · simp [measEq, and_assoc]

/-- C10: `Window.__eq__` compares only the class and the attribute-name
set, which agree for any two `Window` instances, so any two windows compare
equal regardless of their widths, offsets or taper fractions. -/
theorem window_eq_ignores_values (a b : Window) : windowEqB a b = true := by
  simp [windowEqB, Window.attrNames]

/-! ### Constructor validation (`Data.__init__`, `Measure.__init__`) -/

/-- Modelled from the spec: `core.odd` — a value rounded to an odd integer,
used only for the default window width (≈ one third of the trace length). -/
def specOdd (q : ℚ) : ℕ := 2 * (⌊q / 2⌋).toNat + 1

/-- The state a `Data` instance holds after a successful `Data.__init__`
(restricted to the validated fields plus the default window width). -/
structure DataObj where
  x : List ℚ
  y : List ℚ
  delta : ℚ
  geom : String
  windowWidth : ℕ
deriving DecidableEq

/-- `Data.__init__`: requires the `delta` keyword (`'delta must be set'`),
a positive `delta` (the property setter raises `'delta must be positive'`),
an odd number of samples, equal trace lengths, and a known geometry tag
(the `geom` setter); `geom` defaults to `"geo"` when absent (a documented
default, not a validation).  The checks appear in source order. -/
def dataInit (x y : List ℚ) (delta : Option ℚ) (geom : Option String) :
    Except String DataObj :=
  match delta with
  | none => .error "delta must be set"
  | some d =>
    if d ≤ 0 then .error "delta must be positive"
    else if x.length % 2 = 0 then .error "data must have odd number of samples"
    else if x.length ≠ y.length then .error "x and y must be the same length"
    else
      let g := geom.getD "geo"
      if g ∉ (["geo", "ray", "cart"] : List String) then
        .error "geom must be one of [geo, ray, cart]"
      else .ok ⟨x, y, d, g, specOdd ((x.length : ℚ) / 3)⟩

/-- A Python value passed as the `rcvcorr`/`srccorr` keyword: either a tuple
of numbers or a value of some other type. -/
inductive PyCorrArg where
  | tup : List ℚ → PyCorrArg
  | nontuple : PyCorrArg
deriving DecidableEq

/-- The correction-keyword validation of `Measure.__init__`: the argument
must be a tuple (`TypeError('rcvcorr must be tuple')`) of length 2
(`Exception('rcvcorr must be length 2')`); on success the `(angle, lag)`
pair is returned. -/
def parseCorr (a : PyCorrArg) : Except String (ℚ × ℚ) :=
  match a with
  | .nontuple => .error "rcvcorr must be tuple"
  | .tup [deg, lagtime] => .ok (deg, lagtime)
  | .tup _ => .error "rcvcorr must be length 2"

/-- Whether an `Except`-valued constructor call succeeded. -/
def exceptOk {ε α : Type} : Except ε α → Bool
  | .ok _ => true
  | .error _ => false

/-- C8: every malformed constructor argument is fatal to the construction
call.  `Data.__init__` succeeds iff the sampling interval is present and
positive, the traces have odd and equal lengths, and the geometry tag
(after its documented default) is known; the correction-keyword validation
of `Measure.__init__` succeeds iff the argument is a tuple of arity 2.
Nothing malformed is silently defaulted. -/
theorem malformed_ctor_args_fatal (x y : List ℚ) (delta : Option ℚ)
    (geom : Option String) (a : PyCorrArg) :
    (exceptOk (dataInit x y delta geom) = true ↔
      ((∃ d, delta = some d ∧ 0 < d) ∧ x.length % 2 = 1 ∧
       x.length = y.length ∧
       geom.getD "geo" ∈ (["geo", "ray", "cart"] : List String))) ∧
    (exceptOk (parseCorr a) = true ↔ ∃ l, a = .tup l ∧ l.length = 2) := by
  constructor
  · match delta with
    | none => simp [dataInit, exceptOk]
    | some d =>
      simp only [dataInit]
      split_ifs with h1 h2 h3 h4
      · refine iff_of_false (by simp [exceptOk]) ?_
        rintro ⟨⟨e, he, hpos⟩, -, -, -⟩
        cases Option.some.inj he
        exact absurd hpos (not_lt.mpr h1)
      · refine iff_of_false (by simp [exceptOk]) ?_
        rintro ⟨-, hodd, -, -⟩
        omega
      · refine iff_of_false (by simp [exceptOk]) ?_
        rintro ⟨-, -, hlen, -⟩
        exact h3 hlen
      · exact iff_of_true rfl ⟨⟨d, rfl, not_le.mp h1⟩, by omega, by omega, h4⟩
      · refine iff_of_false (by simp [exceptOk]) ?_
        rintro ⟨-, -, -, hmem⟩
        simp_all
  · match a with
    | .nontuple => simp [parseCorr, exceptOk]
    | .tup [] => simp [parseCorr, exceptOk]
    | .tup [a] => simp [parseCorr, exceptOk]
    | .tup [a, b] => simp [parseCorr, exceptOk]
    | .tup (a :: b :: c :: t) => simp [parseCorr, exceptOk]

/-! ### Lag-grid construction (`Measure._parse_lags`,
`Measure._get_degs_lags_and_slags`) -/

/-- Modelled from the spec: `numpy.round` — rounding to the nearest integer
with ties to even (banker's rounding), as used by `core.time2samps`. -/
def npRound (q : ℚ) : ℤ :=
  let f := ⌊q⌋
  let r := q - f
  if r < 1 / 2 then f
  else if 1 / 2 < r then f + 1
  else if f % 2 = 0 then f else f + 1

/-- Modelled from the spec: `core.time2samps(t, delta, 'even')` — a lag
time converted to an even integer sample count,
`int(2 * np.round(t / delta / 2))`. -/
def time2sampsEven (t delta : ℚ) : ℤ := 2 * npRound (t / delta / 2)

/-- Modelled from the spec: `core.samps2time` — a sample count converted
back to a time, `samps * delta`. -/
def samps2time (s : ℤ) (delta : ℚ) : ℚ := (s : ℚ) * delta

/-- `np.unique`: the sorted list of the distinct values of the input. -/
def npUnique (l : List ℤ) : List ℤ := l.toFinset.sort (· ≤ ·)

/-- The `lags` keyword accepted by `Measure._parse_lags`: an explicit numpy
array, or a 1-, 2- or 3-tuple `linspace` specification. -/
inductive LagsSpec where
  | arr : List ℚ → LagsSpec
  | tup1 : ℚ → LagsSpec
  | tup2 : ℚ → ℕ → LagsSpec
  | tup3 : ℚ → ℚ → ℕ → LagsSpec
deriving DecidableEq

/-- `np.linspace(a, b, n)` with the default inclusive endpoint. -/
def linspace (a b : ℚ) (n : ℕ) : List ℚ :=
  if n ≤ 1 then List.replicate n a
  else (List.range n).map (fun i => a + i * ((b - a) / ((n : ℚ) - 1)))

/-- `Measure._parse_lags` for an explicitly requested grid (the `lags`
keyword is present): an array is taken as is; tuples are expanded through
`np.linspace` from a minimum lag of 0, with 40 points by default. -/
def parseLags (s : LagsSpec) : List ℚ :=
  match s with
  | .arr l => l
  | .tup1 b => linspace 0 b 40
  | .tup2 b n => linspace 0 b n
  | .tup3 a b n => linspace a b n

/-- The lag part of `Measure._get_degs_lags_and_slags`: the requested lag
times are snapped to even sample counts, sorted and deduplicated
(`np.unique`), and the reported lag times are recomputed from the
deduplicated sample counts. -/
def getLagsSlags (s : LagsSpec) (delta : ℚ) : List ℚ × List ℤ :=
  ((npUnique ((parseLags s).map (fun t => time2sampsEven t delta))).map
      (fun n => samps2time n delta),
   npUnique ((parseLags s).map (fun t => time2sampsEven t delta)))

/-- Snapping a lag time that is already an exact even number of samples is
the identity: `time2samps(samps2time(n), delta, 'even') = n` for even `n`. -/
theorem time2sampsEven_samps2time (n : ℤ) (delta : ℚ) (hδ : 0 < delta)
    (hn : 2 ∣ n) : time2sampsEven (samps2time n delta) delta = n := by
  obtain ⟨k, rfl⟩ := hn
  have hδ' : delta ≠ 0 := ne_of_gt hδ
  have h1 : samps2time (2 * k) delta / delta / 2 = (k : ℚ) := by
    unfold samps2time
    rw [mul_div_assoc, div_self hδ']
    push_cast
    ring
  unfold time2sampsEven
  rw [h1]
  have h2 : npRound ((k : ℤ) : ℚ) = k := by
    unfold npRound
    norm_num [Int.floor_intCast]
  rw [h2]

/-- `np.unique` on a strictly sorted list is the identity. -/
theorem npUnique_sorted (l : List ℤ) (h : List.Sorted (· < ·) l) :
    npUnique l = l := by
  unfold npUnique
  exact (List.toFinset_sort (· ≤ ·) h.nodup).mpr (h.imp le_of_lt)

/-- C5: for every requested lag grid (array or tuple), the sample-lag grid
is the requested times snapped to even sample counts with duplicates
collapsed (membership is exactly the image of the snap, the grid is
strictly sorted, every entry is even), the reported lag times are
recomputed as `slags * delta` from the deduplicated counts, and feeding the
reported times back in reproduces the same grids (the snap round-trips, so
repeating a request yields identical grids). -/
theorem lag_grid_snap_dedup (s : LagsSpec) (delta : ℚ) (hδ : 0 < delta) :
    (∀ n ∈ (getLagsSlags s delta).2, 2 ∣ n) ∧
    List.Sorted (· < ·) (getLagsSlags s delta).2 ∧
    (∀ n : ℤ, n ∈ (getLagsSlags s delta).2 ↔
      ∃ t ∈ parseLags s, time2sampsEven t delta = n) ∧
    (getLagsSlags s delta).1 =
      List.map (fun n : ℤ => (n : ℚ) * delta) ((getLagsSlags s delta).2) ∧
    getLagsSlags (.arr (getLagsSlags s delta).1) delta = getLagsSlags s delta := by
  have hmem : ∀ n : ℤ, n ∈ (getLagsSlags s delta).2 ↔
      ∃ t ∈ parseLags s, time2sampsEven t delta = n := by
    intro n
    unfold getLagsSlags npUnique
    simp [Finset.mem_sort, List.mem_toFinset]
  have heven : ∀ n ∈ (getLagsSlags s delta).2, 2 ∣ n := by
    intro n hn
    obtain ⟨t, -, rfl⟩ := (hmem n).mp hn
    exact ⟨npRound (t / delta / 2), rfl⟩
  have hsorted : List.Sorted (· < ·) (getLagsSlags s delta).2 := by
    show List.Sorted (· < ·) (npUnique _)
    exact Finset.sort_sorted_lt _
  refine ⟨heven, hsorted, hmem, rfl, ?_⟩
  have hmap : ((getLagsSlags s delta).1).map (fun t => time2sampsEven t delta)
      = (getLagsSlags s delta).2 := by
    show (((getLagsSlags s delta).2).map (fun n => samps2time n delta)).map
      (fun t => time2sampsEven t delta) = (getLagsSlags s delta).2
    rw [List.map_map]
    refine (List.map_congr_left ?_).trans (List.map_id _)
    intro n hn
    exact time2sampsEven_samps2time n delta hδ (heven n hn)
  have key : npUnique ((parseLags (.arr (getLagsSlags s delta).1)).map
      (fun t => time2sampsEven t delta)) = (getLagsSlags s delta).2 := by
    show npUnique (((getLagsSlags s delta).1).map (fun t => time2sampsEven t delta))
      = (getLagsSlags s delta).2
    rw [hmap]
    exact npUnique_sorted _ hsorted
  show (List.map _ (npUnique _), npUnique _) = _
  rw [key]
  rfl

/-- Witness for C5 at the spec's own example: the request `lags=(0, 10, 5)`
with `delta = 1`. -/
theorem lag_grid_snap_dedup_witness :
    (0 : ℚ) < 1 ∧
    ((∀ n ∈ (getLagsSlags (.tup3 0 10 5) 1).2, 2 ∣ n) ∧
     List.Sorted (· < ·) (getLagsSlags (.tup3 0 10 5) 1).2 ∧
     (∀ n : ℤ, n ∈ (getLagsSlags (.tup3 0 10 5) 1).2 ↔
       ∃ t ∈ parseLags (.tup3 0 10 5), time2sampsEven t 1 = n) ∧
     (getLagsSlags (.tup3 0 10 5) 1).1 =
       List.map (fun n : ℤ => (n : ℚ) * 1) ((getLagsSlags (.tup3 0 10 5) 1).2) ∧
     getLagsSlags (.arr (getLagsSlags (.tup3 0 10 5) 1).1) 1 =
       getLagsSlags (.tup3 0 10 5) 1) :=
  ⟨by norm_num, lag_grid_snap_dedup (.tup3 0 10 5) 1 (by norm_num)⟩

/-! ### Error-bar extraction (`Measure.get_errors`) -/

/-- Whether a surface value lies inside the 95% confidence region:
`errsurf >= conf95level` for `surftype='max'`, `errsurf <= conf95level` for
`surftype='min'`. -/
def confCell (ty : String) (lev v : ℚ) : Bool :=
  if ty = "max" then lev ≤ v else if ty = "min" then v ≤ lev else false

/-- Number of rows (lag axis) of the error surface. -/
def nrows (surf : List (List ℚ)) : ℕ := surf.length

/-- Number of columns (angle axis) of the error surface; numpy arrays are
rectangular, so every row of a well-formed surface has this length. -/
def ncols (surf : List (List ℚ)) : ℕ := (surf.headD []).length

/-- A cell of the error surface: row `i` (lag axis), column `j` (angle
axis). -/
def cell (surf : List (List ℚ)) (i j : ℕ) : ℚ := (surf.getD i []).getD j 0

/-- `confbool.any(axis=1)`: one boolean per lag row — is any cell of that
row inside the confidence region? -/
def lagbool (surf : List (List ℚ)) (lev : ℚ) (ty : String) : List Bool :=
  surf.map (fun row => row.any (fun v => confCell ty lev v))

/-- `confbool.any(axis=0)`: one boolean per angle column — is any cell of
that column inside the confidence region? -/
def fastbool (surf : List (List ℚ)) (lev : ℚ) (ty : String) : List Bool :=
  (List.range (ncols surf)).map
    (fun j => surf.any (fun row => confCell ty lev (row.getD j 0)))

/-- `np.where(mask)[0]`: the indices of the `True` entries, increasing. -/
def trueIdxs (m : List Bool) : List ℕ :=
  (List.range m.length).filter (fun i => m.getD i false)

/-- `np.diff` of an index list: consecutive differences. -/
def npDiff (t : List ℕ) : List ℕ := List.zipWith (fun a b => b - a) t t.tail

/-- `.max()` of a list of naturals; the source only applies it to nonempty
arrays (numpy raises on an empty one, surfaced as `none` by the caller). -/
def listMax (l : List ℕ) : ℕ := l.foldr max 0

/-- `Measure.get_errors`: one-sigma errors `(dfast, dlag)` as a quarter of
the extent of the 95% confidence region.  `none` models the raised
exceptions: fewer than two grid points on either axis (`lags[1]` /
`degs[1]` raises `IndexError`), an unknown `surftype` (`ValueError`), an
empty confidence mask (`truth[-1]` raises `IndexError`, and
`np.diff(np.where(cyclic)).max()` raises `ValueError` on an empty mask). -/
def getErrors (lags degs : List ℚ) (surf : List (List ℚ)) (lev : ℚ)
    (ty : String) : Option (ℚ × ℚ) :=
  match lags, degs with
  | l0 :: l1 :: _, d0 :: d1 :: _ =>
    let lagStep := l1 - l0
    let fastStep := d1 - d0
    if ty = "max" ∨ ty = "min" then
      let truth := trueIdxs (lagbool surf lev ty)
      if truth.isEmpty then none
      else
        let fdlag := (((truth.getLastD 0 : ℤ) - (truth.headD 0 : ℤ) + 1 : ℤ) : ℚ)
          * lagStep * (1 / 4)
        let fb := fastbool surf lev ty
        let ctruth := trueIdxs (fb ++ fb)
        if ctruth.length < 2 then none
        else
          let lengthFalse := listMax (npDiff ctruth) - 1
          let lengthTrue := fb.length - lengthFalse
          some ((lengthTrue : ℚ) * fastStep * (1 / 4), fdlag)
    else none
  | _, _ => none

/-- Membership in `trueIdxs`. -/
theorem mem_trueIdxs (m : List Bool) (i : ℕ) :
    i ∈ trueIdxs m ↔ i < m.length ∧ m.getD i false = true := by
  unfold trueIdxs
  rw [List.mem_filter, List.mem_range]

/-- `trueIdxs` is strictly sorted. -/
theorem trueIdxs_sorted (m : List Bool) : List.Sorted (· < ·) (trueIdxs m) :=
  (List.pairwise_lt_range _).sublist (List.filter_sublist _)

/-- The head of a sorted list is a lower bound for its members. -/
theorem sorted_headD_le (t : List ℕ) (ht : List.Sorted (· < ·) t)
    (x : ℕ) (hx : x ∈ t) : t.headD 0 ≤ x := by
  match t with
  | [] => cases hx
  | a :: t =>
    rcases List.mem_cons.mp hx with rfl | hx
    · exact le_refl _
    · exact le_of_lt ((List.sorted_cons.mp ht).1 x hx)

/-- The last element of a sorted list is an upper bound for its members. -/
theorem sorted_le_getLastD (t : List ℕ) (ht : List.Sorted (· < ·) t)
    (x : ℕ) (hx : x ∈ t) : x ≤ t.getLastD 0 := by
  have hne : t ≠ [] := by rintro rfl; cases hx
  rw [List.getLastD_eq_getLast?, List.getLast?_eq_getLast t hne, Option.getD_some,
    List.getLast_eq_getElem]
  obtain ⟨i, hi, rfl⟩ := List.mem_iff_getElem.mp hx
  rcases Nat.lt_or_ge i (t.length - 1) with hlt | hge
  · exact le_of_lt (List.pairwise_iff_getElem.mp ht i (t.length - 1) hi (by omega) hlt)
  · have heq : i = t.length - 1 := by omega
    subst heq
    exact le_refl _

/-- The head of a nonempty list is a member. -/
theorem headD_mem (t : List ℕ) (h : ¬t.isEmpty = true) : t.headD 0 ∈ t := by
  match t with
  | [] => simp at h
  | a :: t => exact List.mem_cons_self a t

/-- The last element of a nonempty list is a member. -/
theorem getLastD_mem (t : List ℕ) (h : ¬t.isEmpty = true) : t.getLastD 0 ∈ t := by
  have hne : t ≠ [] := by rintro rfl; simp at h
  rw [List.getLastD_eq_getLast?, List.getLast?_eq_getLast t hne, Option.getD_some]
  exact List.getLast_mem hne

/-- `trueIdxs` of an all-`true` mask is the full index range. -/
theorem trueIdxs_replicate_true (n : ℕ) :
    trueIdxs (List.replicate n true) = List.range n := by
  unfold trueIdxs
  rw [List.length_replicate]
  refine List.filter_eq_self.mpr ?_
  intro i hi
  rw [List.getD_eq_getElem?_getD,
    List.getElem?_eq_getElem (by simpa using List.mem_range.mp hi),
    List.getElem_replicate]
  rfl

/-- `np.diff` of `range n` is all ones. -/
theorem npDiff_range (n : ℕ) : npDiff (List.range n) = List.replicate (n - 1) 1 := by
  unfold npDiff
  refine List.ext_getElem ?_ ?_
  · simp [List.length_zipWith]
  · intro k h1 h2
    rw [List.getElem_zipWith, List.getElem_replicate, List.getElem_tail]
    have hk : k < n - 1 := by simpa using h2
    rw [List.getElem_range, List.getElem_range]
    omega

/-- The maximum of a nonempty constant-one list is one. -/
theorem listMax_replicate_one (k : ℕ) (hk : 0 < k) :
    listMax (List.replicate k 1) = 1 := by
  induction k with
  | zero => omega
  | succ k ih =>
    rw [List.replicate_succ]
    unfold listMax at ih ⊢
    match k with
    | 0 => rfl
    | k + 1 =>
      rw [List.foldr_cons, ih (by omega)]
      exact max_self 1

/-- The head of `range n` is zero. -/
theorem headD_range (n : ℕ) : (List.range n).headD 0 = 0 := by
  match n with
  | 0 => rfl
  | n + 1 => rw [List.range_succ_eq_map]; rfl

/-- The last element of a nonempty `range n` is `n - 1`. -/
theorem getLastD_range (n : ℕ) (hn : 0 < n) : (List.range n).getLastD 0 = n - 1 := by
  match n with
  | n + 1 =>
    rw [List.range_succ, List.getLastD_eq_getLast?, List.getLast?_concat]
    rfl

/-- When every cell is inside the confidence region, every lag row is
flagged. -/
theorem lagbool_all_true (surf : List (List ℚ)) (lev : ℚ) (ty : String)
    (hrect : ∀ row ∈ surf, row.length = ncols surf) (hc : 0 < ncols surf)
    (hfull : ∀ row ∈ surf, ∀ v ∈ row, confCell ty lev v = true) :
    lagbool surf lev ty = List.replicate (nrows surf) true := by
  unfold lagbool nrows
  rw [List.eq_replicate_iff]
  refine ⟨List.length_map _ _, ?_⟩
  intro b hb
  obtain ⟨row, hrow, rfl⟩ := List.mem_map.mp hb
  rw [List.any_eq_true]
  have hne : row ≠ [] := by
    intro h
    subst h
    have := hrect [] hrow
    simp at this
    omega
  exact ⟨row.head hne, List.head_mem hne, hfull row hrow _ (List.head_mem hne)⟩

/-- When every cell is inside the confidence region, every angle column is
flagged. -/
theorem fastbool_all_true (surf : List (List ℚ)) (lev : ℚ) (ty : String)
    (hrect : ∀ row ∈ surf, row.length = ncols surf) (hr : 0 < nrows surf)
    (hfull : ∀ row ∈ surf, ∀ v ∈ row, confCell ty lev v = true) :
    fastbool surf lev ty = List.replicate (ncols surf) true := by
  unfold fastbool
  rw [List.eq_replicate_iff]
  refine ⟨by simp, ?_⟩
  intro b hb
  obtain ⟨j, hj, rfl⟩ := List.mem_map.mp hb
  have hjlt : j < ncols surf := List.mem_range.mp hj
  rw [List.any_eq_true]
  have hne : surf ≠ [] := by
    unfold nrows at hr
    intro h
    rw [h] at hr
    simp at hr
  refine ⟨surf.head hne, List.head_mem hne, ?_⟩
  have hlen : (surf.head hne).length = ncols surf := hrect _ (List.head_mem hne)
  have hmem : (surf.head hne).getD j 0 ∈ surf.head hne := by
    rw [List.getD_eq_getElem?_getD, List.getElem?_eq_getElem (by omega), Option.getD_some]
    exact List.getElem_mem _
  exact hfull _ (List.head_mem hne) _ hmem

/-- When no cell is inside the confidence region, no lag row is flagged. -/
theorem trueIdxs_lagbool_empty (surf : List (List ℚ)) (lev : ℚ) (ty : String)
    (hempty : ∀ row ∈ surf, ∀ v ∈ row, confCell ty lev v = false) :
    trueIdxs (lagbool surf lev ty) = [] := by
  unfold trueIdxs
  rw [List.filter_eq_nil_iff]
  intro i hi
  have hi' : i < (lagbool surf lev ty).length := by
    simpa [lagbool] using List.mem_range.mp (by simpa [lagbool] using hi)
  rw [List.getD_eq_getElem?_getD, List.getElem?_eq_getElem hi', Option.getD_some]
  have hlt : i < surf.length := by simpa [lagbool] using hi'
  unfold lagbool
  rw [List.getElem_map]
  simp only [List.any_eq_true, not_exists]
  intro v
  rintro ⟨hv, hconf⟩
  rw [hempty _ (List.getElem_mem _) v hv] at hconf
  cases hconf

/-- C2 counterexample: on the flat surface `[[0,0],[0,0]]` with threshold
`1` (surftype `'max'`) the confidence mask is empty, and `get_errors` does
not return a sentinel — `truth[-1]` raises `IndexError` (modelled as
`none`), contradicting the claim that an empty mask yields a defined value
without an exception. -/
theorem getErrors_empty_mask_raises :
    lagbool [[0, 0], [0, 0]] 1 "max" = [false, false] ∧
    getErrors [0, 1] [0, 1] [[0, 0], [0, 0]] 1 "max" = none := by
  constructor
  · rfl
  · rfl

/-- C2 (amended): a confidence mask spanning the full grid yields the
defined value (a quarter of the full grid extent on each axis), but an
empty confidence mask makes `get_errors` raise (`truth[-1]` is an index
error), not return a sentinel. -/
theorem getErrors_degenerate_masks (lags degs : List ℚ) (surf : List (List ℚ))
    (lev : ℚ) (ty : String)
    (h2l : 2 ≤ lags.length) (h2d : 2 ≤ degs.length)
    (hty : ty = "max" ∨ ty = "min") :
    ((0 < nrows surf → 0 < ncols surf →
      (∀ row ∈ surf, row.length = ncols surf) →
      (∀ row ∈ surf, ∀ v ∈ row, confCell ty lev v = true) →
      getErrors lags degs surf lev ty =
        some ((ncols surf : ℚ) * (degs.getD 1 0 - degs.getD 0 0) * (1 / 4),
              (nrows surf : ℚ) * (lags.getD 1 0 - lags.getD 0 0) * (1 / 4))) ∧
     ((∀ row ∈ surf, ∀ v ∈ row, confCell ty lev v = false) →
      getErrors lags degs surf lev ty = none)) := by
  match lags, degs with
  | l0 :: l1 :: lr, d0 :: d1 :: dr =>
  constructor
  · intro hr hc hrect hfull
    simp only [getErrors]
    rw [if_pos hty, lagbool_all_true surf lev ty hrect hc hfull,
      trueIdxs_replicate_true,
      fastbool_all_true surf lev ty hrect hr hfull,
      if_neg (by simp [List.isEmpty_iff, List.range_eq_nil]; omega)]
    rw [← List.replicate_add, trueIdxs_replicate_true, List.length_range,
      if_neg (by omega), npDiff_range,
      listMax_replicate_one _ (by omega),
      getLastD_range _ hr, headD_range, List.length_replicate]
    have h1 : ncols surf + ncols surf - 1 - 1 = 2 * (ncols surf - 1) := by omega
    congr 1
    have hc' : (1 : ℕ) - 1 = 0 := rfl
    rw [hc']
    have h2 : ncols surf - 0 = ncols surf := rfl
    rw [h2]
    have h3 : (((nrows surf - 1 : ℕ) : ℤ) - ((0 : ℕ) : ℤ) + 1) = (nrows surf : ℤ) := by
      omega
    rw [h3]
    norm_num
  · intro hempty
    simp only [getErrors]
    rw [if_pos hty, trueIdxs_lagbool_empty surf lev ty hempty]
    rfl

/-- Witness for C2 (amended) at a concrete input: the all-inside surface
`[[2,2],[2,2]]` at threshold `1`, surftype `'max'`, on a 2×2 grid. -/
theorem getErrors_degenerate_masks_witness :
    2 ≤ ([0, 1] : List ℚ).length ∧ 2 ≤ ([0, 1] : List ℚ).length ∧
    ("max" = "max" ∨ "max" = "min") ∧
    ((0 < nrows [[2, 2], [2, 2]] → 0 < ncols [[2, 2], [2, 2]] →
      (∀ row ∈ ([[2, 2], [2, 2]] : List (List ℚ)), row.length = ncols [[2, 2], [2, 2]]) →
      (∀ row ∈ ([[2, 2], [2, 2]] : List (List ℚ)), ∀ v ∈ row, confCell "max" 1 v = true) →
      getErrors [0, 1] [0, 1] [[2, 2], [2, 2]] 1 "max" =
        some ((ncols [[2, 2], [2, 2]] : ℚ) * (([0, 1] : List ℚ).getD 1 0 - ([0, 1] : List ℚ).getD 0 0) * (1 / 4),
              (nrows [[2, 2], [2, 2]] : ℚ) * (([0, 1] : List ℚ).getD 1 0 - ([0, 1] : List ℚ).getD 0 0) * (1 / 4))) ∧
     ((∀ row ∈ ([[2, 2], [2, 2]] : List (List ℚ)), ∀ v ∈ row, confCell "max" 1 v = false) →
      getErrors [0, 1] [0, 1] [[2, 2], [2, 2]] 1 "max" = none)) :=
  ⟨by norm_num, by norm_num, Or.inl rfl,
    getErrors_degenerate_masks [0, 1] [0, 1] [[2, 2], [2, 2]] 1 "max"
      (by norm_num) (by norm_num) (Or.inl rfl)⟩

/-- The column of the grid node carrying the optimum of the error surface
(first occurrence in row-major order, as `np.argmax`/`np.argmin` would
report): maximising surfaces (`'max'`) take the largest value, minimising
ones the smallest. -/
def optCol (surf : List (List ℚ)) (ty : String) : ℕ :=
  let cells := (List.range (nrows surf)).flatMap
    (fun i => (List.range (ncols surf)).map (fun j => (i, j)))
  let best := cells.foldl
    (fun acc ij =>
      if (if ty = "max" then cell surf acc.1 acc.2 < cell surf ij.1 ij.2
          else cell surf ij.1 ij.2 < cell surf acc.1 acc.2)
      then ij else acc) (0, 0)
  best.2

/-- The lag error as the claim words it: a quarter of the span between the
first and last `True` row index, where the rows considered are those of the
column containing the optimum.  This definition follows the claim's words;
it is compared against the source's `get_errors` below. -/
def lagErrAtOptimumColumn (lags : List ℚ) (surf : List (List ℚ)) (lev : ℚ)
    (ty : String) : Option ℚ :=
  match lags with
  | l0 :: l1 :: _ =>
    let j := optCol surf ty
    let colMask := surf.map (fun row => confCell ty lev (row.getD j 0))
    let truth := trueIdxs colMask
    if truth.isEmpty then none
    else some ((((truth.getLastD 0 : ℤ) - (truth.headD 0 : ℤ) + 1 : ℤ) : ℚ)
      * (l1 - l0) * (1 / 4))
  | _ => none

/-- C4 counterexample: on the surface `[[10,0],[0,6]]` (rows = lag axis)
with threshold `5` and unit grid steps, the optimum sits at row 0, column
0, whose column has a single flagged row (span 1, error `1/4`); but
`get_errors` collapses the mask with `any` over *all* columns, sees flagged
rows 0 and 1 (span 2) and returns `1/2` — the rows considered are not those
of the optimum's column. -/
theorem getErrors_lag_ignores_optimum_column :
    lagErrAtOptimumColumn [0, 1] [[10, 0], [0, 6]] 5 "max" = some (1 / 4) ∧
    getErrors [0, 1] [0, 1] [[10, 0], [0, 6]] 5 "max" = some (1 / 2, 1 / 2) ∧
    ((1 : ℚ) / 4) ≠ 1 / 2 := by
  refine ⟨by with_unfolding_all rfl, by with_unfolding_all rfl, by norm_num⟩

/-- Two distinct members force a list length of at least two. -/
theorem two_le_length_of_mem_ne {α : Type} (l : List α) (a b : α)
    (ha : a ∈ l) (hb : b ∈ l) (hab : a ≠ b) : 2 ≤ l.length := by
  match l with
  | [] => cases ha
  | [x] =>
    rw [List.mem_singleton] at ha hb
    exact absurd (ha.trans hb.symm) hab
  | x :: y :: t => simp [List.length_cons]

/-- C4 (amended): the lag error returned by `get_errors` is a quarter of
the span (inclusive) between the first and last flagged lag row, where a
row is flagged when *any* column of that row — not only the optimum's
column — has a cell inside the confidence region. -/
theorem getErrors_lag_span_rowwise_any (lags degs : List ℚ)
    (surf : List (List ℚ)) (lev : ℚ) (ty : String)
    (h2l : 2 ≤ lags.length) (h2d : 2 ≤ degs.length)
    (hty : ty = "max" ∨ ty = "min")
    (hrect : ∀ row ∈ surf, row.length = ncols surf)
    (hne : ∃ i, i < nrows surf ∧ ∃ j, j < ncols surf ∧
      confCell ty lev (cell surf i j) = true) :
    ∃ (fdf : ℚ) (lo hi : ℕ),
      (lagbool surf lev ty).getD lo false = true ∧
      (lagbool surf lev ty).getD hi false = true ∧
      (∀ i, (lagbool surf lev ty).getD i false = true → lo ≤ i ∧ i ≤ hi) ∧
      getErrors lags degs surf lev ty =
        some (fdf,
          ((hi : ℚ) - (lo : ℚ) + 1) * (lags.getD 1 0 - lags.getD 0 0) * (1 / 4)) := by
  match lags, degs with
  | l0 :: l1 :: lr, d0 :: d1 :: dr =>
  obtain ⟨i0, hi0, j0, hj0, hcell⟩ := hne
  have hnr : nrows surf = surf.length := rfl
  -- the flagged cell flags its lag row
  have hlaglen : (lagbool surf lev ty).length = surf.length := by
    unfold lagbool; simp
  have hrowlen : (surf.getD i0 []).length = ncols surf := by
    rw [List.getD_eq_getElem?_getD, List.getElem?_eq_getElem hi0, Option.getD_some]
    exact hrect _ (List.getElem_mem _)
  have hrowmem : (surf.getD i0 []).getD j0 0 ∈ surf.getD i0 [] := by
    rw [List.getD_eq_getElem?_getD (surf.getD i0 []),
      List.getElem?_eq_getElem (by omega), Option.getD_some]
    exact List.getElem_mem _
  have hlag0 : (lagbool surf lev ty).getD i0 false = true := by
    rw [List.getD_eq_getElem?_getD, List.getElem?_eq_getElem (by omega), Option.getD_some]
    unfold lagbool
    rw [List.getElem_map]
    rw [List.any_eq_true]
    refine ⟨(surf.getD i0 []).getD j0 0, ?_, ?_⟩
    · have : surf[i0] = surf.getD i0 [] := by
        rw [List.getD_eq_getElem?_getD, List.getElem?_eq_getElem hi0, Option.getD_some]
      rw [this]
      exact hrowmem
    · exact hcell
  have hmem0 : i0 ∈ trueIdxs (lagbool surf lev ty) := by
    rw [mem_trueIdxs]
    exact ⟨by omega, hlag0⟩
  have htne : ¬(trueIdxs (lagbool surf lev ty)).isEmpty = true := by
    intro h
    rw [List.isEmpty_iff] at h
    rw [h] at hmem0
    cases hmem0
  -- the flagged cell also flags its angle column, twice in the doubled mask
  have hfblen : (fastbool surf lev ty).length = ncols surf := by
    unfold fastbool; simp
  have hfb0 : (fastbool surf lev ty).getD j0 false = true := by
    rw [List.getD_eq_getElem?_getD, List.getElem?_eq_getElem (by omega), Option.getD_some]
    unfold fastbool
    rw [List.getElem_map, List.any_eq_true]
    refine ⟨surf.getD i0 [], ?_, ?_⟩
    · rw [List.getD_eq_getElem?_getD, List.getElem?_eq_getElem hi0, Option.getD_some]
      exact List.getElem_mem _
    · simp only [List.getElem_range]
      exact hcell
  have hcyc2 : 2 ≤ (trueIdxs (fastbool surf lev ty ++ fastbool surf lev ty)).length := by
    set fb := fastbool surf lev ty with hfb
    have hm1 : j0 ∈ trueIdxs (fb ++ fb) := by
      rw [mem_trueIdxs]
      constructor
      · rw [List.length_append]; omega
      · rw [List.getD_eq_getElem?_getD,
          List.getElem?_eq_getElem (by rw [List.length_append]; omega), Option.getD_some,
          List.getElem_append_left (by omega)]
        rw [List.getD_eq_getElem?_getD, List.getElem?_eq_getElem (by omega),
          Option.getD_some] at hfb0
        exact hfb0
    have hm2 : fb.length + j0 ∈ trueIdxs (fb ++ fb) := by
      rw [mem_trueIdxs]
      constructor
      · rw [List.length_append]; omega
      · rw [List.getD_eq_getElem?_getD,
          List.getElem?_eq_getElem (by rw [List.length_append]; omega), Option.getD_some,
          List.getElem_append_right (by omega)]
        simp only [Nat.add_sub_cancel_left]
        rw [List.getD_eq_getElem?_getD, List.getElem?_eq_getElem (by omega),
          Option.getD_some] at hfb0
        exact hfb0
    exact two_le_length_of_mem_ne _ _ _ hm1 hm2 (by omega)
  -- now evaluate `get_errors`
  simp only [getErrors]
  rw [if_pos hty, if_neg htne, if_neg (by omega)]
  refine ⟨(((fastbool surf lev ty).length -
      (listMax (npDiff (trueIdxs (fastbool surf lev ty ++ fastbool surf lev ty))) - 1) : ℕ) : ℚ)
        * (d1 - d0) * (1 / 4),
    (trueIdxs (lagbool surf lev ty)).headD 0,
    (trueIdxs (lagbool surf lev ty)).getLastD 0, ?_, ?_, ?_, ?_⟩
  · exact ((mem_trueIdxs _ _).mp (headD_mem _ htne)).2
  · exact ((mem_trueIdxs _ _).mp (getLastD_mem _ htne)).2
  · intro i hflag
    have hit : i ∈ trueIdxs (lagbool surf lev ty) := by
      rw [mem_trueIdxs]
      by_cases hlt : i < (lagbool surf lev ty).length
      · exact ⟨hlt, hflag⟩
      · rw [List.getD_eq_getElem?_getD, List.getElem?_eq_none (by omega)] at hflag
        cases hflag
    exact ⟨sorted_headD_le _ (trueIdxs_sorted _) i hit,
      sorted_le_getLastD _ (trueIdxs_sorted _) i hit⟩
  · refine congrArg some (Prod.ext ?_ ?_)
    · rfl
    · simp only [List.getD_cons_succ, List.getD_cons_zero]
      push_cast
      ring

/-- Witness for C4 (amended) at a concrete input: the surface
`[[10,0],[0,6]]`, threshold `5`, surftype `'max'`, unit grid steps. -/
theorem getErrors_lag_span_rowwise_any_witness :
    2 ≤ ([0, 1] : List ℚ).length ∧ 2 ≤ ([0, 1] : List ℚ).length ∧
    ("max" = "max" ∨ "max" = "min") ∧
    (∀ row ∈ ([[10, 0], [0, 6]] : List (List ℚ)), row.length = ncols [[10, 0], [0, 6]]) ∧
    (∃ i, i < nrows [[10, 0], [0, 6]] ∧ ∃ j, j < ncols [[10, 0], [0, 6]] ∧
      confCell "max" 5 (cell [[10, 0], [0, 6]] i j) = true) ∧
    (∃ (fdf : ℚ) (lo hi : ℕ),
      (lagbool [[10, 0], [0, 6]] 5 "max").getD lo false = true ∧
      (lagbool [[10, 0], [0, 6]] 5 "max").getD hi false = true ∧
      (∀ i, (lagbool [[10, 0], [0, 6]] 5 "max").getD i false = true → lo ≤ i ∧ i ≤ hi) ∧
      getErrors [0, 1] [0, 1] [[10, 0], [0, 6]] 5 "max" =
        some (fdf,
          ((hi : ℚ) - (lo : ℚ) + 1) * (([0, 1] : List ℚ).getD 1 0 - ([0, 1] : List ℚ).getD 0 0) * (1 / 4))) :=
  ⟨by norm_num, by norm_num, Or.inl rfl, by decide,
    ⟨0, by decide, 0, by decide, by with_unfolding_all rfl⟩,
    getErrors_lag_span_rowwise_any [0, 1] [0, 1] [[10, 0], [0, 6]] 5 "max"
      (by norm_num) (by norm_num) (Or.inl rfl) (by decide)
      ⟨0, by decide, 0, by decide, by with_unfolding_all rfl⟩⟩

/-! ### Transform primitives and the grid-search window
(`Measure.gridsearch`, with `core.lag`/`core.chop` modelled from the
spec) -/

/-- Modelled from the spec: `core.lag` — shifts the two components
`nsamps` samples relative to each other by truncation, preserving
centrality (`x[nsamps:], y[:-nsamps]` for positive `nsamps`, the mirrored
slices for negative `nsamps`); each trace shortens by `|nsamps|`. -/
def lagPair {α : Type} (x y : List α) (nsamps : ℤ) : List α × List α :=
  if nsamps = 0 then (x, y)
  else if 0 < nsamps then (x.drop nsamps.toNat, y.take (y.length - nsamps.toNat))
  else (x.take (x.length - (-nsamps).toNat), y.drop (-nsamps).toNat)

/-- Modelled from the spec: `core.chop` with explicit start/end samples, as
called by the grid-search inner loop — extracts the inclusive sample range
`[t0, t1]` from both traces, failing (`WindowOutOfRangeError`) when the
range falls outside either trace. -/
def chopPair {α : Type} (x y : List α) (t0 t1 : ℤ) : Option (List α × List α) :=
  if 0 ≤ t0 ∧ t0 ≤ t1 ∧ t1 < (x.length : ℤ) ∧ t1 < (y.length : ℤ) then
    some ((x.drop t0.toNat).take (t1 - t0 + 1).toNat,
          (y.drop t0.toNat).take (t1 - t0 + 1).toNat)
  else none

/-- `ds = int(abs(shift)/2)` from the `win` closure of
`Measure.gridsearch`. -/
def halfShift (shift : ℤ) : ℤ := ((shift.natAbs / 2 : ℕ) : ℤ)

/-- The `win` closure of `Measure.gridsearch`: both configured window
bounds `(s0, s1)` are moved down by `ds = int(abs(shift)/2)`. -/
def winShift (s0 s1 shift : ℤ) : ℤ × ℤ :=
  (s0 - halfShift shift, s1 - halfShift shift)

/-- The inclusive slice of `len` samples of a trace starting at sample
`a`. -/
def listSliceI {α : Type} (x : List α) (a : ℤ) (len : ℕ) : List α :=
  (x.drop a.toNat).take len

/-- C1: in the grid-search inner loop, for a grid node with (even) sample
lag `shift`, the window adjustment is sign-independent
(`win shift = win (-shift)`), and after `lag(x, y, -shift)` the chop at
`win shift` succeeds and returns, in original-trace coordinates, the two
slices of nominal window width starting at `s0 - ds` and `s0 + ds`
(`ds = |shift|/2`; which trace gets which start depends on the sign), so
the samples covered by *both* components form exactly the configured
window shrunk symmetrically by `ds` on each side — an interval whose
midpoint is the configured window's midpoint (the compared segment stays
aligned in absolute time). -/
theorem gridsearch_window_recentre {α : Type} (x y : List α) (N : ℕ)
    (s0 s1 shift : ℤ)
    (hx : x.length = N) (hy : y.length = N) (hev : 2 ∣ shift) (h01 : s0 ≤ s1)
    (hlo : 0 ≤ s0 - halfShift shift) (hhi : s1 + halfShift shift < (N : ℤ)) :
    winShift s0 s1 shift = winShift s0 s1 (-shift) ∧
    ∃ a b : ℤ,
      ((0 ≤ shift ∧ a = s0 - halfShift shift ∧ b = s0 + halfShift shift) ∨
       (shift ≤ 0 ∧ a = s0 + halfShift shift ∧ b = s0 - halfShift shift)) ∧
      chopPair (lagPair x y (-shift)).1 (lagPair x y (-shift)).2
          (winShift s0 s1 shift).1 (winShift s0 s1 shift).2 =
        some (listSliceI x a (s1 - s0 + 1).toNat,
              listSliceI y b (s1 - s0 + 1).toNat) ∧
      (∀ k : ℤ, (a ≤ k ∧ k ≤ a + (s1 - s0) ∧ b ≤ k ∧ k ≤ b + (s1 - s0)) ↔
        (s0 + halfShift shift ≤ k ∧ k ≤ s1 - halfShift shift)) ∧
      (s0 + halfShift shift) + (s1 - halfShift shift) = s0 + s1 := by
  obtain ⟨c, rfl⟩ := hev
  have hsign : winShift s0 s1 (2 * c) = winShift s0 s1 (-(2 * c)) := by
    unfold winShift halfShift
    rw [Int.natAbs_neg]
  have hd : halfShift (2 * c) = (c.natAbs : ℤ) := by
    unfold halfShift
    rw [Int.natAbs_mul]
    simp
  refine ⟨hsign, ?_⟩
  rcases lt_trichotomy c 0 with hc | hc | hc
  · -- negative shift: `lag` drops the front of `x` and the tail of `y`
    refine ⟨s0 + halfShift (2 * c), s0 - halfShift (2 * c),
      Or.inr ⟨by omega, rfl, rfl⟩, ?_, fun k => by omega, by ring⟩
    unfold lagPair winShift
    rw [if_neg (by omega), if_pos (by omega)]
    dsimp only
    unfold chopPair
    rw [if_pos (by simp only [List.length_drop, List.length_take]; omega)]
    unfold listSliceI
    congr 2
    · rw [List.drop_drop]
      congr 2 <;> omega
    · rw [List.drop_take, List.take_take]
      congr 2 <;> omega
  · -- zero shift: `lag` is the identity and the window is unchanged
    subst hc
    refine ⟨s0, s0, Or.inl ⟨by omega, by omega, by omega⟩, ?_, fun k => by omega, by ring⟩
    unfold lagPair winShift
    rw [if_pos (by omega)]
    dsimp only
    unfold chopPair
    rw [if_pos (by omega)]
    unfold listSliceI
    congr 2
    · congr 2 <;> omega
    · congr 2 <;> omega
  · -- positive shift: `lag` drops the tail of `x` and the front of `y`
    refine ⟨s0 - halfShift (2 * c), s0 + halfShift (2 * c),
      Or.inl ⟨by omega, rfl, rfl⟩, ?_, fun k => by omega, by ring⟩
    unfold lagPair winShift
    rw [if_neg (by omega), if_neg (by omega)]
    dsimp only
    unfold chopPair
    rw [if_pos (by simp only [List.length_drop, List.length_take]; omega)]
    unfold listSliceI
    congr 2
    · rw [List.drop_take, List.take_take]
      congr 2 <;> omega
    · rw [List.drop_drop]
      congr 2 <;> omega

/-- Witness for C1 at a concrete input: a 7-sample pair, configured window
`[2, 4]`, sample lag `2` (so `ds = 1`). -/
theorem gridsearch_window_recentre_witness :
    (([0, 1, 2, 3, 4, 5, 6] : List ℚ).length = 7) ∧
    (([6, 5, 4, 3, 2, 1, 0] : List ℚ).length = 7) ∧
    (2 ∣ (2 : ℤ)) ∧ ((2 : ℤ) ≤ 4) ∧ ((0 : ℤ) ≤ 2 - halfShift 2) ∧
    (4 + halfShift 2 < (7 : ℤ)) ∧
    (winShift 2 4 2 = winShift 2 4 (-2) ∧
     ∃ a b : ℤ,
       ((0 ≤ (2 : ℤ) ∧ a = 2 - halfShift 2 ∧ b = 2 + halfShift 2) ∨
        ((2 : ℤ) ≤ 0 ∧ a = 2 + halfShift 2 ∧ b = 2 - halfShift 2)) ∧
       chopPair (lagPair ([0, 1, 2, 3, 4, 5, 6] : List ℚ) [6, 5, 4, 3, 2, 1, 0] (-2)).1
           (lagPair ([0, 1, 2, 3, 4, 5, 6] : List ℚ) [6, 5, 4, 3, 2, 1, 0] (-2)).2
           (winShift 2 4 2).1 (winShift 2 4 2).2 =
         some (listSliceI ([0, 1, 2, 3, 4, 5, 6] : List ℚ) a ((4 : ℤ) - 2 + 1).toNat,
               listSliceI ([6, 5, 4, 3, 2, 1, 0] : List ℚ) b ((4 : ℤ) - 2 + 1).toNat) ∧
       (∀ k : ℤ, (a ≤ k ∧ k ≤ a + ((4 : ℤ) - 2) ∧ b ≤ k ∧ k ≤ b + ((4 : ℤ) - 2)) ↔
         (2 + halfShift 2 ≤ k ∧ k ≤ 4 - halfShift 2)) ∧
       (2 + halfShift 2) + (4 - halfShift 2) = (2 : ℤ) + 4) :=
  ⟨rfl, rfl, ⟨1, rfl⟩, by decide, by decide, by decide,
    gridsearch_window_recentre [0, 1, 2, 3, 4, 5, 6] [6, 5, 4, 3, 2, 1, 0] 7 2 4 2
      rfl rfl ⟨1, rfl⟩ (by decide) (by decide) (by decide)⟩

/-! ### The grid search (`Measure.gridsearch`) -/

/-- Modelled from the spec: `core.rotate` — applies the 2-D rotation matrix
for `degrees` to every sample pair (`x' = cos·x − sin·y`,
`y' = sin·x + cos·y`). -/
noncomputable def rotatePair (x y : List ℝ) (degrees : ℝ) : List ℝ × List ℝ :=
  (List.zipWith (fun a b => Real.cos (degrees * Real.pi / 180) * a
      - Real.sin (degrees * Real.pi / 180) * b) x y,
   List.zipWith (fun a b => Real.sin (degrees * Real.pi / 180) * a
      + Real.cos (degrees * Real.pi / 180) * b) x y)

/-- Modelled from the spec: `core.unsplit` — rotate to the fast angle, undo
the lag (`lag(·, ·, -nsamps)`), rotate back. -/
noncomputable def unsplitPair (x y : List ℝ) (degrees : ℝ) (nsamps : ℤ) :
    List ℝ × List ℝ :=
  let r := rotatePair x y degrees
  let l := lagPair r.1 r.2 (-nsamps)
  rotatePair l.1 l.2 (-degrees)

/-- The `rotpol` closure of `Measure.gridsearch`: rotate the chopped pair
to the source polarisation when the transverse-minimisation mode requires
it, then evaluate the objective. -/
noncomputable def rotpolStep {β : Type} (func : List ℝ → List ℝ → β)
    (pol : Option ℝ) (ang : ℝ) (ch : List ℝ × List ℝ) : β :=
  match pol with
  | some p => func (rotatePair ch.1 ch.2 (p - ang)).1
      (rotatePair ch.1 ch.2 (p - ang)).2
  | none => func ch.1 ch.2

/-- The inner-loop closure `getout` of `Measure.gridsearch`: remove the
candidate lag, apply the per-node source correction (when configured, at
angle `srcphi - ang` for the current candidate angle `ang`), chop to the
lag-adjusted window, optionally rotate to the source polarisation, and
evaluate the objective.  `none` models a `WindowOutOfRangeError` escaping
from `chop`. -/
noncomputable def getout {β : Type} (func : List ℝ → List ℝ → β)
    (srccorr : Option (ℝ × ℤ)) (pol : Option ℝ) (s0 s1 : ℤ)
    (x y : List ℝ) (ang : ℝ) (shift : ℤ) : Option β :=
  let l := lagPair x y (-shift)
  let sc := match srccorr with
    | some (srcphi, srclag) => unsplitPair l.1 l.2 (srcphi - ang) srclag
    | none => l
  (chopPair sc.1 sc.2 (winShift s0 s1 shift).1 (winShift s0 s1 shift).2).map
    (rotpolStep func pol ang)

/-- `Measure.gridsearch`: takes the canonical-orientation pair `(x, y)`
(the data after `rotateto(0)`), removes the receiver correction once when
configured, pre-rotates the corrected pair per candidate angle (`prerot`),
and evaluates `getout` at every `(angle, lag)` node. -/
noncomputable def gridsearch {β : Type} (x y : List ℝ) (degs : List ℝ)
    (slags : List ℤ) (s0 s1 : ℤ) (rcvcorr srccorr : Option (ℝ × ℤ))
    (pol : Option ℝ) (func : List ℝ → List ℝ → β) : List (List (Option β)) :=
  let base := match rcvcorr with
    | some (rcvphi, rcvlag) => unsplitPair x y rcvphi rcvlag
    | none => (x, y)
  let prerot := degs.map (fun ang => (rotatePair base.1 base.2 ang, ang))
  prerot.map (fun pa =>
    slags.map (fun shift => getout func srccorr pol s0 s1 pa.1.1 pa.1.2 pa.2 shift))

/-- C7: with both corrections configured, every grid cell `(i, j)` of the
grid search is the objective applied to a pipeline in which (a) the
receiver correction is removed exactly once from the canonical-orientation
pair — the subterm `unsplitPair x y rphi rlag` below does not depend on `i`
or `j`, so it is shared by all nodes and sits before the per-angle
rotation — and (b) the source correction is removed inside the inner loop
at the angle `sphi - degs[i]`, recomputed from the current candidate angle
(second conjunct, which spells out the inner-loop closure). -/
theorem gridsearch_correction_placement (x y : List ℝ) (degs : List ℝ)
    (slags : List ℤ) (s0 s1 : ℤ) (rphi sphi : ℝ) (rlag slag : ℤ)
    (pol : Option ℝ) {β : Type} (func : List ℝ → List ℝ → β)
    (i j : ℕ) (hi : i < degs.length) (hj : j < slags.length) :
    (((gridsearch x y degs slags s0 s1 (some (rphi, rlag)) (some (sphi, slag))
        pol func).getD i []).getD j none =
      getout func (some (sphi, slag)) pol s0 s1
        (rotatePair (unsplitPair x y rphi rlag).1 (unsplitPair x y rphi rlag).2
          (degs.getD i 0)).1
        (rotatePair (unsplitPair x y rphi rlag).1 (unsplitPair x y rphi rlag).2
          (degs.getD i 0)).2
        (degs.getD i 0) (slags.getD j 0)) ∧
    (∀ (a b : List ℝ) (ang : ℝ) (shift : ℤ),
      getout func (some (sphi, slag)) pol s0 s1 a b ang shift =
        (chopPair
          (unsplitPair (lagPair a b (-shift)).1 (lagPair a b (-shift)).2
            (sphi - ang) slag).1
          (unsplitPair (lagPair a b (-shift)).1 (lagPair a b (-shift)).2
            (sphi - ang) slag).2
          (winShift s0 s1 shift).1 (winShift s0 s1 shift).2).map
          (rotpolStep func pol ang)) := by
  constructor
  · unfold gridsearch
    dsimp only
    simp only [List.getD_eq_getElem?_getD, List.getElem?_map,
      List.getElem?_eq_getElem hi, List.getElem?_eq_getElem hj,
      Option.map_some', Option.getD_some]
  · intro a b ang shift
    rfl

/-- Witness for C7 at a concrete input: the pair `([1,0,0], [0,0,0])`, a
single candidate angle `30`, a single zero lag, window `[1, 1]`, receiver
correction `(0, 0)` and source correction `(10, 0)`. -/
theorem gridsearch_correction_placement_witness :
    0 < ([(30 : ℝ)] : List ℝ).length ∧ 0 < ([(0 : ℤ)] : List ℤ).length ∧
    (((gridsearch [1, 0, 0] [0, 0, 0] [(30 : ℝ)] [(0 : ℤ)] 1 1
        (some ((0 : ℝ), (0 : ℤ))) (some ((10 : ℝ), (0 : ℤ)))
        none (fun a _ => a.length)).getD 0 []).getD 0 none =
      getout (fun a _ => a.length) (some ((10 : ℝ), (0 : ℤ))) none 1 1
        (rotatePair (unsplitPair [1, 0, 0] [0, 0, 0] 0 0).1
          (unsplitPair [1, 0, 0] [0, 0, 0] 0 0).2
          (([(30 : ℝ)] : List ℝ).getD 0 0)).1
        (rotatePair (unsplitPair [1, 0, 0] [0, 0, 0] 0 0).1
          (unsplitPair [1, 0, 0] [0, 0, 0] 0 0).2
          (([(30 : ℝ)] : List ℝ).getD 0 0)).2
        (([(30 : ℝ)] : List ℝ).getD 0 0) (([(0 : ℤ)] : List ℤ).getD 0 0)) ∧
    (∀ (a b : List ℝ) (ang : ℝ) (shift : ℤ),
      getout (fun a _ => a.length) (some ((10 : ℝ), (0 : ℤ))) none 1 1 a b ang shift =
        (chopPair
          (unsplitPair (lagPair a b (-shift)).1 (lagPair a b (-shift)).2
            ((10 : ℝ) - ang) 0).1
          (unsplitPair (lagPair a b (-shift)).1 (lagPair a b (-shift)).2
            ((10 : ℝ) - ang) 0).2
          (winShift 1 1 shift).1 (winShift 1 1 shift).2).map
          (rotpolStep (fun a _ => a.length) none ang)) :=
  ⟨by simp, by simp,
    gridsearch_correction_placement [1, 0, 0] [0, 0, 0] [(30 : ℝ)] [(0 : ℤ)] 1 1
      0 10 0 0 none (fun a _ => a.length) 0 0 (by simp) (by simp)⟩

/-! ### The circular fast-angle error (`Measure.get_errors`, fast part)

The source finds the longest run of `False` across a doubled copy of the
per-angle mask and subtracts it from the cycle.  The specification says the
result is the length of the shortest cyclic arc containing every `True`
column; `coversArc`/`shortestCyclicArc` below define that notion directly,
and the development proves the source's computation equal to it. -/

/-- The cyclic distance from a flagged column to the next flagged column
(`1 ≤ gap ≤ A`, scanning `d = 1, 2, …, A`); meaningful when column `i`
itself is flagged, so the scan always terminates at `d = A` at the
latest. -/
def nextTrueGap (m : List Bool) (i : ℕ) : ℕ :=
  (((List.range' 1 m.length)).find?
    (fun d => m.getD ((i + d) % m.length) false)).getD 0

/-- The largest cyclic gap between consecutive flagged columns. -/
def maxCycGap (m : List Bool) : ℕ :=
  listMax ((trueIdxs m).map (nextTrueGap m))

/-- Whether the cyclic arc of `len` columns starting at column `s` contains
every flagged column (the arc is the set of columns at cyclic distance
below `len` from `s`). -/
def coversArc (m : List Bool) (s len : ℕ) : Bool :=
  (List.range m.length).all
    (fun i => !(m.getD i false) || decide ((i + m.length - s) % m.length < len))

/-- The length of the shortest cyclic arc containing every flagged column
(the full cycle always works, so the scan over `0, …, A` terminates). -/
def shortestCyclicArc (m : List Bool) : ℕ :=
  ((List.range (m.length + 1)).find?
    (fun len => (List.range m.length).any (fun s => coversArc m s len))).getD m.length

/-- Members bound the fold maximum from below. -/
theorem le_listMax (l : List ℕ) (a : ℕ) (ha : a ∈ l) : a ≤ listMax l := by
  induction l with
  | nil => cases ha
  | cons b t ih =>
    rcases List.mem_cons.mp ha with rfl | ha
    · exact le_max_left _ _
    · exact le_trans (ih ha) (le_max_right _ _)

/-- An upper bound for all members bounds the fold maximum. -/
theorem listMax_le (l : List ℕ) (c : ℕ) (hc : ∀ a ∈ l, a ≤ c) :
    listMax l ≤ c := by
  induction l with
  | nil => exact Nat.zero_le c
  | cons b t ih =>
    refine max_le (hc b (List.mem_cons_self b t)) (ih ?_)
    intro a ha
    exact hc a (List.mem_cons_of_mem b ha)

/-- The fold maximum of a nonempty list is one of its members. -/
theorem listMax_mem (l : List ℕ) (hl : l ≠ []) : listMax l ∈ l := by
  induction l with
  | nil => exact absurd rfl hl
  | cons b t ih =>
    match t with
    | [] => simpa [listMax] using List.mem_singleton.mpr rfl
    | c :: t' =>
      show max b (listMax (c :: t')) ∈ b :: c :: t'
      rcases max_choice b (listMax (c :: t')) with h | h
      · rw [h]; exact List.mem_cons_self _ _
      · rw [h]; exact List.mem_cons_of_mem b (ih (by simp))

/-- `find?` on a strictly sorted list: everything below the hit fails the
predicate. -/
theorem sorted_find?_min (p : ℕ → Bool) (l : List ℕ) (a : ℕ)
    (hs : l.Pairwise (· < ·)) (hf : l.find? p = some a) :
    ∀ x ∈ l, x < a → p x = false := by
  induction l with
  | nil => intro x hx; cases hx
  | cons b t ih =>
    intro x hx hxa
    rw [List.find?_cons] at hf
    rcases hb : p b with hpb | hpb
    · rw [hb] at hf
      rcases List.mem_cons.mp hx with rfl | hx
      · exact hb
      · exact ih (List.pairwise_cons.mp hs).2 hf x hx hxa
    · rw [hb] at hf
      simp only [Option.some.injEq] at hf
      subst hf
      rcases List.mem_cons.mp hx with rfl | hx
      · exact absurd hxa (lt_irrefl x)
      · exact absurd hxa (not_lt.mpr (le_of_lt ((List.pairwise_cons.mp hs).1 x hx)))

/-- `find?` succeeds as soon as some member satisfies the predicate. -/
theorem find?_succeeds (p : ℕ → Bool) (l : List ℕ) (x : ℕ) (hx : x ∈ l)
    (hp : p x = true) : ∃ a, l.find? p = some a ∧ p a = true ∧ a ∈ l := by
  have h : (l.find? p).isSome = true := List.find?_isSome.mpr ⟨x, hx, hp⟩
  obtain ⟨a, ha⟩ := Option.isSome_iff_exists.mp h
  exact ⟨a, ha, List.find?_some ha, List.mem_of_find?_eq_some ha⟩

/-- `nextTrueGap` at a flagged column: the gap is between `1` and `A`, and
the column at that cyclic distance is flagged. -/
theorem nextTrueGap_spec (m : List Bool) (i : ℕ) (hi : i < m.length)
    (hit : m.getD i false = true) :
    1 ≤ nextTrueGap m i ∧ nextTrueGap m i ≤ m.length ∧
      m.getD ((i + nextTrueGap m i) % m.length) false = true := by
  have hA : 0 < m.length := lt_of_le_of_lt (Nat.zero_le i) hi
  have hmemA : m.length ∈ List.range' 1 m.length := by
    rw [List.mem_range']
    exact ⟨m.length - 1, by omega, by omega⟩
  have hpA : m.getD ((i + m.length) % m.length) false = true := by
    rw [Nat.add_mod_right, Nat.mod_eq_of_lt hi]
    exact hit
  obtain ⟨g, hg, hpg, hmem⟩ := find?_succeeds
    (fun d => m.getD ((i + d) % m.length) false) (List.range' 1 m.length)
    m.length hmemA hpA
  rw [List.mem_range'] at hmem
  obtain ⟨k, hk, rfl⟩ := hmem
  unfold nextTrueGap
  rw [hg, Option.getD_some]
  exact ⟨by omega, by omega, hpg⟩

/-- `nextTrueGap` minimality: every smaller positive distance lands on an
unflagged column. -/
theorem nextTrueGap_min (m : List Bool) (i d : ℕ) (hi : i < m.length)
    (hit : m.getD i false = true) (hd1 : 1 ≤ d) (hd : d < nextTrueGap m i) :
    m.getD ((i + d) % m.length) false = false := by
  obtain ⟨h1, h2, h3⟩ := nextTrueGap_spec m i hi hit
  have hA : 0 < m.length := lt_of_le_of_lt (Nat.zero_le i) hi
  have hmemA : m.length ∈ List.range' 1 m.length := by
    rw [List.mem_range']
    exact ⟨m.length - 1, by omega, by omega⟩
  have hpA : m.getD ((i + m.length) % m.length) false = true := by
    rw [Nat.add_mod_right, Nat.mod_eq_of_lt hi]
    exact hit
  obtain ⟨g, hg, hpg, hmem⟩ := find?_succeeds
    (fun d => m.getD ((i + d) % m.length) false) (List.range' 1 m.length)
    m.length hmemA hpA
  have hgv : nextTrueGap m i = g := by
    unfold nextTrueGap
    rw [hg, Option.getD_some]
  refine sorted_find?_min _ _ _ (List.pairwise_lt_range' 1 m.length) hg d ?_ ?_
  · rw [List.mem_range']
    exact ⟨d - 1, by omega, by omega⟩
  · omega

/-- `nextTrueGap` uniqueness: a positive distance that lands on a flagged
column while all smaller ones do not is the gap. -/
theorem nextTrueGap_eq (m : List Bool) (i g : ℕ) (hi : i < m.length)
    (hit : m.getD i false = true) (hg1 : 1 ≤ g) (hgA : g ≤ m.length)
    (htrue : m.getD ((i + g) % m.length) false = true)
    (hfalse : ∀ d, 1 ≤ d → d < g → m.getD ((i + d) % m.length) false = false) :
    nextTrueGap m i = g := by
  obtain ⟨h1, h2, h3⟩ := nextTrueGap_spec m i hi hit
  rcases lt_trichotomy (nextTrueGap m i) g with h | h | h
  · rw [hfalse _ h1 h] at h3
    cases h3
  · exact h
  · rw [nextTrueGap_min m i g hi hit hg1 h] at htrue
    cases htrue

/-- Reading the doubled mask reduces to reading the mask modulo its
length. -/
theorem getD_doubled (m : List Bool) (j : ℕ) (hj : j < 2 * m.length) :
    (m ++ m).getD j false = m.getD (j % m.length) false := by
  have hA : 0 < m.length := by omega
  have hlen : (m ++ m).length = 2 * m.length := by simp; omega
  rw [List.getD_eq_getElem?_getD, List.getElem?_eq_getElem (by omega),
    Option.getD_some]
  rw [List.getD_eq_getElem?_getD, List.getElem?_eq_getElem (Nat.mod_lt j hA),
    Option.getD_some]
  rcases Nat.lt_or_ge j m.length with h | h
  · rw [List.getElem_append_left h]
    simp only [Nat.mod_eq_of_lt h]
  · rw [List.getElem_append_right h]
    have : j % m.length = j - m.length := by
      rw [Nat.mod_eq_sub_mod h, Nat.mod_eq_of_lt (by omega)]
    simp only [this]

/-- Membership in the flagged indices of the doubled mask. -/
theorem mem_trueIdxs_doubled (m : List Bool) (j : ℕ) :
    j ∈ trueIdxs (m ++ m) ↔
      j < 2 * m.length ∧ m.getD (j % m.length) false = true := by
  rw [mem_trueIdxs, List.length_append]
  constructor
  · rintro ⟨hj, ht⟩
    refine ⟨by omega, ?_⟩
    rw [← getD_doubled m j (by omega)]
    exact ht
  · rintro ⟨hj, ht⟩
    refine ⟨by omega, ?_⟩
    rw [getD_doubled m j (by omega)]
    exact ht

/-- Consecutive flagged indices of the doubled mask are separated by
exactly the cyclic gap of the earlier one. -/
theorem trueIdxs_doubled_consec (m : List Bool) (k : ℕ)
    (hk : k + 1 < (trueIdxs (m ++ m)).length) :
    (trueIdxs (m ++ m)).get ⟨k + 1, hk⟩ - (trueIdxs (m ++ m)).get ⟨k, by omega⟩
      = nextTrueGap m ((trueIdxs (m ++ m)).get ⟨k, by omega⟩ % m.length) := by
  have hA : 0 < m.length := by
    by_contra h0
    have hz : m.length = 0 := by omega
    have hnil : trueIdxs (m ++ m) = [] := by
      unfold trueIdxs
      rw [List.length_append, hz]
      rfl
    rw [hnil] at hk
    simp at hk
  set t := trueIdxs (m ++ m) with ht
  set p := t.get ⟨k, by omega⟩ with hp
  set p' := t.get ⟨k + 1, hk⟩ with hp'
  have hsort := trueIdxs_sorted (m ++ m)
  have hpp : p < p' :=
    List.pairwise_iff_getElem.mp hsort k (k + 1) (by omega) hk (by omega)
  have hpm : p ∈ t := by rw [hp]; exact List.get_mem t _ _
  have hp'm : p' ∈ t := by rw [hp']; exact List.get_mem t _ _
  obtain ⟨hp2A, hptrue⟩ := (mem_trueIdxs_doubled m p).mp hpm
  obtain ⟨hp'2A, hp'true⟩ := (mem_trueIdxs_doubled m p').mp hp'm
  have hbet : ∀ q, p < q → q < p' → m.getD (q % m.length) false = false := by
    intro q hq1 hq2
    by_contra hqt
    rw [Bool.not_eq_false] at hqt
    have hqm : q ∈ t := (mem_trueIdxs_doubled m q).mpr ⟨by omega, hqt⟩
    obtain ⟨j, hj, hje⟩ := List.mem_iff_getElem.mp hqm
    have hgetk : t[k] = p := by rw [hp, List.get_eq_getElem]
    have hgetk1 : t[k + 1] = p' := by rw [hp', List.get_eq_getElem]
    rcases Nat.lt_or_ge j k with hjk | hjk
    · have hlt := List.pairwise_iff_getElem.mp hsort j k hj (by omega) hjk
      rw [hje, hgetk] at hlt
      omega
    rcases Nat.lt_or_ge (k + 1) j with hjk2 | hjk2
    · have hlt := List.pairwise_iff_getElem.mp hsort (k + 1) j hk hj hjk2
      rw [hje, hgetk1] at hlt
      omega
    rcases Nat.lt_or_ge j (k + 1) with hjk3 | hjk3
    · have hje' : j = k := by omega
      subst hje'
      rw [hgetk] at hje
      omega
    · have hje' : j = k + 1 := by omega
      subst hje'
      rw [hgetk1] at hje
      omega
  have hle : p' - p ≤ m.length := by
    by_contra hgt
    rcases Nat.lt_or_ge p m.length with hpA | hpA
    · have h1 := hbet (p + m.length) (by omega) (by omega)
      rw [Nat.add_mod_right, Nat.mod_eq_of_lt hpA] at h1
      rw [Nat.mod_eq_of_lt hpA] at hptrue
      rw [h1] at hptrue
      cases hptrue
    · omega
  refine Eq.symm (nextTrueGap_eq m (p % m.length) (p' - p) (Nat.mod_lt p hA) hptrue
    (by omega) hle ?_ ?_)
  · rw [Nat.mod_add_mod]
    have hpe : p + (p' - p) = p' := by omega
    rw [hpe]
    exact hp'true
  · intro d hd1 hd2
    rw [Nat.mod_add_mod]
    exact hbet (p + d) (by omega) (by omega)

/-- Length of `np.diff`. -/
theorem length_npDiff (t : List ℕ) : (npDiff t).length = t.length - 1 := by
  unfold npDiff
  rw [List.length_zipWith, List.length_tail]
  omega

/-- Element of `np.diff`: the difference of consecutive entries. -/
theorem npDiff_getElem (t : List ℕ) (k : ℕ) (hk1 : k + 1 < t.length) :
    (npDiff t).get ⟨k, by rw [length_npDiff]; omega⟩ =
      t.get ⟨k + 1, hk1⟩ - t.get ⟨k, by omega⟩ := by
  unfold npDiff
  rw [List.get_eq_getElem, List.getElem_zipWith, List.getElem_tail]
  rw [List.get_eq_getElem, List.get_eq_getElem]

/-- Step A: the largest diff over the doubled flagged-index list is the
largest cyclic gap of the mask. -/
theorem listMax_npDiff_eq_maxCycGap (m : List Bool)
    (hne : ∃ i, i < m.length ∧ m.getD i false = true) :
    listMax (npDiff (trueIdxs (m ++ m))) = maxCycGap m := by
  obtain ⟨i0, hi0, hit0⟩ := hne
  have hA : 0 < m.length := by omega
  refine le_antisymm ?_ ?_
  · refine listMax_le _ _ ?_
    intro a ha
    obtain ⟨k, hk, hEq⟩ := List.mem_iff_getElem.mp ha
    have hk1 : k + 1 < (trueIdxs (m ++ m)).length := by
      have := length_npDiff (trueIdxs (m ++ m))
      omega
    have hEq2 : a = nextTrueGap m
        ((trueIdxs (m ++ m)).get ⟨k, by omega⟩ % m.length) := by
      rw [← hEq]
      show (npDiff (trueIdxs (m ++ m))).get ⟨k, hk⟩ = _
      rw [npDiff_getElem _ _ hk1, trueIdxs_doubled_consec m k hk1]
    have hp_mem : (trueIdxs (m ++ m)).get ⟨k, by omega⟩ ∈ trueIdxs (m ++ m) :=
      List.get_mem _ _ _
    obtain ⟨h2A, htr⟩ := (mem_trueIdxs_doubled m _).mp hp_mem
    have hrm : ((trueIdxs (m ++ m)).get ⟨k, by omega⟩ % m.length) ∈ trueIdxs m :=
      (mem_trueIdxs m _).mpr ⟨Nat.mod_lt _ hA, htr⟩
    rw [hEq2]
    exact le_listMax _ _ (List.mem_map.mpr ⟨_, hrm, rfl⟩)
  · have hi0m : i0 ∈ trueIdxs m := (mem_trueIdxs m i0).mpr ⟨hi0, hit0⟩
    have hmap_ne : (trueIdxs m).map (nextTrueGap m) ≠ [] := by
      intro h
      rw [List.map_eq_nil_iff] at h
      rw [h] at hi0m
      cases hi0m
    obtain ⟨r, hr, hre⟩ := List.mem_map.mp (listMax_mem _ hmap_ne)
    obtain ⟨hrA, hrt⟩ := (mem_trueIdxs m r).mp hr
    have hrd : r ∈ trueIdxs (m ++ m) := (mem_trueIdxs_doubled m r).mpr
      ⟨by omega, by rw [Nat.mod_eq_of_lt hrA]; exact hrt⟩
    obtain ⟨k, hk, hkE⟩ := List.mem_iff_getElem.mp hrd
    have hyd : m.length + r ∈ trueIdxs (m ++ m) := (mem_trueIdxs_doubled m _).mpr
      ⟨by omega, by rw [Nat.add_mod_left, Nat.mod_eq_of_lt hrA]; exact hrt⟩
    obtain ⟨j, hj, hjE⟩ := List.mem_iff_getElem.mp hyd
    have hsort := trueIdxs_sorted (m ++ m)
    have hk1 : k + 1 < (trueIdxs (m ++ m)).length := by
      by_contra hcon
      rcases Nat.lt_or_ge j k with h | h
      · have hlt := List.pairwise_iff_getElem.mp hsort j k hj hk h
        rw [hjE, hkE] at hlt
        omega
      · have hje : j = k := by omega
        subst hje
        rw [hjE] at hkE
        omega
    have hdiff : (npDiff (trueIdxs (m ++ m))).get ⟨k, by rw [length_npDiff]; omega⟩ =
        nextTrueGap m r := by
      rw [npDiff_getElem _ _ hk1, trueIdxs_doubled_consec m k hk1]
      have hgk : (trueIdxs (m ++ m)).get ⟨k, by omega⟩ = r := by
        rw [List.get_eq_getElem]
        exact hkE
      rw [hgk, Nat.mod_eq_of_lt hrA]
    show maxCycGap m ≤ _
    unfold maxCycGap
    rw [← hre, ← hdiff]
    exact le_listMax _ _ (List.get_mem _ _ _)

/-- The largest cyclic gap of a nonempty mask lies between `1` and the
cycle length, and is attained at some flagged column. -/
theorem maxCycGap_spec (m : List Bool)
    (hne : ∃ i, i < m.length ∧ m.getD i false = true) :
    1 ≤ maxCycGap m ∧ maxCycGap m ≤ m.length ∧
      ∃ r, r ∈ trueIdxs m ∧ nextTrueGap m r = maxCycGap m := by
  obtain ⟨i0, hi0, hit0⟩ := hne
  have hi0m : i0 ∈ trueIdxs m := (mem_trueIdxs m i0).mpr ⟨hi0, hit0⟩
  have hmap_ne : (trueIdxs m).map (nextTrueGap m) ≠ [] := by
    intro h
    rw [List.map_eq_nil_iff] at h
    rw [h] at hi0m
    cases hi0m
  obtain ⟨r, hr, hre⟩ := List.mem_map.mp (listMax_mem _ hmap_ne)
  obtain ⟨hrA, hrt⟩ := (mem_trueIdxs m r).mp hr
  obtain ⟨h1, h2, -⟩ := nextTrueGap_spec m r hrA hrt
  refine ⟨?_, ?_, r, hr, hre⟩
  · show 1 ≤ listMax _
    rw [← hre]
    omega
  · refine listMax_le _ _ ?_
    intro a ha
    obtain ⟨q, hq, hqe⟩ := List.mem_map.mp ha
    obtain ⟨hqA, hqt⟩ := (mem_trueIdxs m q).mp hq
    obtain ⟨-, hb, -⟩ := nextTrueGap_spec m q hqA hqt
    omega

/-- Step B, existence: the arc starting one gap beyond an attaining flagged
column and of length `A - maxGap + 1` covers every flagged column. -/
theorem coversArc_exists (m : List Bool)
    (hne : ∃ i, i < m.length ∧ m.getD i false = true) :
    ∃ s, s < m.length ∧ coversArc m s (m.length - maxCycGap m + 1) = true := by
  have hA : 0 < m.length := by obtain ⟨i0, hi0, -⟩ := hne; omega
  obtain ⟨hG1, hGA, r, hr, hre⟩ := maxCycGap_spec m hne
  obtain ⟨hrA, hrt⟩ := (mem_trueIdxs m r).mp hr
  refine ⟨(r + maxCycGap m) % m.length, Nat.mod_lt _ hA, ?_⟩
  unfold coversArc
  rw [List.all_eq_true]
  intro i hi
  have hiA : i < m.length := List.mem_range.mp hi
  rcases hgi : m.getD i false with _ | _
  · simp [hgi]
  · simp only [hgi, Bool.not_true, Bool.false_or, decide_eq_true_eq]
    by_contra hge
    push_neg at hge
    set s := (r + maxCycGap m) % m.length with hs
    set cc := (i + m.length - s) % m.length with hcc
    have hsA : s < m.length := Nat.mod_lt _ hA
    have hclt : cc < m.length := Nat.mod_lt _ hA
    have hi_eq : (s + cc) % m.length = i := by
      rw [hcc, Nat.add_mod_mod]
      have h1 : s + (i + m.length - s) = i + m.length := by omega
      rw [h1, Nat.add_mod_right, Nat.mod_eq_of_lt hiA]
    have hi_eq2 : (r + (maxCycGap m + cc)) % m.length = i := by
      rw [← hi_eq, hs, Nat.mod_add_mod, Nat.add_assoc]
    have hd : (r + (maxCycGap m + cc)) % m.length
        = (r + (maxCycGap m + cc - m.length)) % m.length := by
      have h2 : maxCycGap m + cc = (maxCycGap m + cc - m.length) + m.length := by
        omega
      conv_lhs => rw [h2]
      rw [← Nat.add_assoc, Nat.add_mod_right]
    have hfalse := nextTrueGap_min m r (maxCycGap m + cc - m.length) hrA hrt
      (by omega) (by omega)
    rw [hd] at hi_eq2
    rw [hi_eq2] at hfalse
    rw [hfalse] at hgi
    cases hgi

/-- Step B, minimality: any covering arc is at least `A - maxGap + 1`
long. -/
theorem coversArc_min (m : List Bool)
    (hne : ∃ i, i < m.length ∧ m.getD i false = true)
    (s len : ℕ) (hs : s < m.length) (hcov : coversArc m s len = true) :
    m.length - maxCycGap m + 1 ≤ len := by
  have hA : 0 < m.length := by obtain ⟨i0, hi0, -⟩ := hne; omega
  obtain ⟨hG1, hGA, -⟩ := maxCycGap_spec m hne
  rcases le_or_lt m.length len with hlen | hlen
  · omega
  unfold coversArc at hcov
  rw [List.all_eq_true] at hcov
  have hcoord : ∀ i ∈ trueIdxs m, (i + m.length - s) % m.length < len := by
    intro i hi
    obtain ⟨hiA, hit⟩ := (mem_trueIdxs m i).mp hi
    have := hcov i (List.mem_range.mpr hiA)
    rw [hit] at this
    simpa using this
  obtain ⟨i0, hi0, hit0⟩ := hne
  have hi0m : i0 ∈ trueIdxs m := (mem_trueIdxs m i0).mpr ⟨hi0, hit0⟩
  have hmap_ne : (trueIdxs m).map (fun i => (i + m.length - s) % m.length) ≠ [] := by
    intro h
    rw [List.map_eq_nil_iff] at h
    rw [h] at hi0m
    cases hi0m
  obtain ⟨p, hp, hpe⟩ := List.mem_map.mp (listMax_mem _ hmap_ne)
  obtain ⟨hpA, hpt⟩ := (mem_trueIdxs m p).mp hp
  set cstar := listMax ((trueIdxs m).map (fun i => (i + m.length - s) % m.length))
    with hcs
  have hcl : cstar < len := by
    rw [← hpe]
    exact hcoord p hp
  have hffar : ∀ d, 1 ≤ d → d ≤ m.length - 1 - cstar →
      m.getD ((p + d) % m.length) false = false := by
    intro d hd1 hd2
    by_contra hqt
    rw [Bool.not_eq_false] at hqt
    set q := (p + d) % m.length with hq
    have hqA : q < m.length := Nat.mod_lt _ hA
    have hqm : q ∈ trueIdxs m := (mem_trueIdxs m q).mpr ⟨hqA, hqt⟩
    have hqc : (q + m.length - s) % m.length = cstar + d := by
      have e1 : q + m.length - s = q + (m.length - s) := by omega
      rw [e1, hq, Nat.mod_add_mod]
      have e2 : p + d + (m.length - s) = (p + (m.length - s)) + d := by omega
      rw [e2, ← Nat.mod_add_mod]
      have e3 : (p + (m.length - s)) % m.length = cstar := by
        rw [← hpe]
        have e4 : p + m.length - s = p + (m.length - s) := by omega
        rw [e4]
      rw [e3]
      exact Nat.mod_eq_of_lt (by omega)
    have hle := le_listMax ((trueIdxs m).map (fun i => (i + m.length - s) % m.length))
      ((q + m.length - s) % m.length) (List.mem_map.mpr ⟨q, hqm, rfl⟩)
    rw [hqc] at hle
    omega
  obtain ⟨hg1, hgA2, hgt⟩ := nextTrueGap_spec m p hpA hpt
  have hggap : m.length - cstar ≤ nextTrueGap m p := by
    by_contra hcon
    push_neg at hcon
    have := hffar (nextTrueGap m p) hg1 (by omega)
    rw [this] at hgt
    cases hgt
  have hpG := le_listMax _ _
    (List.mem_map.mpr ⟨p, hp, rfl⟩ :
      nextTrueGap m p ∈ (trueIdxs m).map (nextTrueGap m))
  show m.length - maxCycGap m + 1 ≤ len
  unfold maxCycGap at hpG ⊢
  omega

/-- Step B: the shortest covering cyclic arc has length
`A - maxGap + 1`. -/
theorem shortestCyclicArc_eq (m : List Bool)
    (hne : ∃ i, i < m.length ∧ m.getD i false = true) :
    shortestCyclicArc m = m.length - maxCycGap m + 1 := by
  have hA : 0 < m.length := by obtain ⟨i0, hi0, -⟩ := hne; omega
  obtain ⟨hG1, hGA, -⟩ := maxCycGap_spec m hne
  obtain ⟨s0, hs0, hcov0⟩ := coversArc_exists m hne
  have hpred : (List.range m.length).any
      (fun s => coversArc m s (m.length - maxCycGap m + 1)) = true := by
    rw [List.any_eq_true]
    exact ⟨s0, List.mem_range.mpr hs0, hcov0⟩
  have hmem : m.length - maxCycGap m + 1 ∈ List.range (m.length + 1) :=
    List.mem_range.mpr (by omega)
  obtain ⟨a, ha, hpa, ham⟩ := find?_succeeds
    (fun len => (List.range m.length).any (fun s => coversArc m s len))
    (List.range (m.length + 1)) (m.length - maxCycGap m + 1) hmem hpred
  have heq : shortestCyclicArc m = a := by
    unfold shortestCyclicArc
    rw [ha, Option.getD_some]
  rw [heq]
  refine le_antisymm ?_ ?_
  · by_contra hcon
    push_neg at hcon
    have := sorted_find?_min _ _ _ (List.pairwise_lt_range _) ha
      (m.length - maxCycGap m + 1) hmem hcon
    rw [this] at hpred
    cases hpred
  · rw [List.any_eq_true] at hpa
    obtain ⟨s, hsm, hcov⟩ := hpa
    exact coversArc_min m hne s a (List.mem_range.mp hsm) hcov

/-- The bridge used by `get_errors`: subtracting the longest `False` run
over the doubled mask from the cycle computes the shortest covering cyclic
arc. -/
theorem doubling_computes_shortestCyclicArc (m : List Bool)
    (hne : ∃ i, i < m.length ∧ m.getD i false = true) :
    m.length - (listMax (npDiff (trueIdxs (m ++ m))) - 1) = shortestCyclicArc m := by
  rw [listMax_npDiff_eq_maxCycGap m hne, shortestCyclicArc_eq m hne]
  obtain ⟨hG1, hGA, -⟩ := maxCycGap_spec m hne
  omega

/-- C3: for a rectangular error surface with at least one cell inside the
confidence region, the fast-angle error returned by `get_errors` equals a
quarter of the angle step times the length of the shortest cyclic arc
containing all `True` columns of the per-angle any-`True` mask — the
doubled-mask longest-`False`-run computation wraps the ±90° seam
correctly. -/
theorem getErrors_fast_shortest_cyclic_arc (lags degs : List ℚ)
    (surf : List (List ℚ)) (lev : ℚ) (ty : String)
    (h2l : 2 ≤ lags.length) (h2d : 2 ≤ degs.length)
    (hty : ty = "max" ∨ ty = "min")
    (hrect : ∀ row ∈ surf, row.length = ncols surf)
    (hne : ∃ i, i < nrows surf ∧ ∃ j, j < ncols surf ∧
      confCell ty lev (cell surf i j) = true) :
    ∃ fdl : ℚ,
      getErrors lags degs surf lev ty =
        some (((shortestCyclicArc (fastbool surf lev ty) : ℕ) : ℚ)
          * (degs.getD 1 0 - degs.getD 0 0) * (1 / 4), fdl) := by
  match lags, degs with
  | l0 :: l1 :: lr, d0 :: d1 :: dr =>
  obtain ⟨i0, hi0, j0, hj0, hcell⟩ := hne
  have hnr : nrows surf = surf.length := rfl
  have hlaglen : (lagbool surf lev ty).length = surf.length := by
    unfold lagbool; simp
  have hrowlen : (surf.getD i0 []).length = ncols surf := by
    rw [List.getD_eq_getElem?_getD, List.getElem?_eq_getElem hi0, Option.getD_some]
    exact hrect _ (List.getElem_mem _)
  have hrowmem : (surf.getD i0 []).getD j0 0 ∈ surf.getD i0 [] := by
    rw [List.getD_eq_getElem?_getD (surf.getD i0 []),
      List.getElem?_eq_getElem (by omega), Option.getD_some]
    exact List.getElem_mem _
  have hlag0 : (lagbool surf lev ty).getD i0 false = true := by
    rw [List.getD_eq_getElem?_getD, List.getElem?_eq_getElem (by omega), Option.getD_some]
    unfold lagbool
    rw [List.getElem_map]
    rw [List.any_eq_true]
    refine ⟨(surf.getD i0 []).getD j0 0, ?_, ?_⟩
    · have : surf[i0] = surf.getD i0 [] := by
        rw [List.getD_eq_getElem?_getD, List.getElem?_eq_getElem hi0, Option.getD_some]
      rw [this]
      exact hrowmem
    · exact hcell
  have hmem0 : i0 ∈ trueIdxs (lagbool surf lev ty) := by
    rw [mem_trueIdxs]
    exact ⟨by omega, hlag0⟩
  have htne : ¬(trueIdxs (lagbool surf lev ty)).isEmpty = true := by
    intro h
    rw [List.isEmpty_iff] at h
    rw [h] at hmem0
    cases hmem0
  have hfblen : (fastbool surf lev ty).length = ncols surf := by
    unfold fastbool; simp
  have hfb0 : (fastbool surf lev ty).getD j0 false = true := by
    rw [List.getD_eq_getElem?_getD, List.getElem?_eq_getElem (by omega), Option.getD_some]
    unfold fastbool
    rw [List.getElem_map, List.any_eq_true]
    refine ⟨surf.getD i0 [], ?_, ?_⟩
    · rw [List.getD_eq_getElem?_getD, List.getElem?_eq_getElem hi0, Option.getD_some]
      exact List.getElem_mem _
    · simp only [List.getElem_range]
      exact hcell
  have hfbne : ∃ j, j < (fastbool surf lev ty).length ∧
      (fastbool surf lev ty).getD j false = true := ⟨j0, by omega, hfb0⟩
  have hcyc2 : 2 ≤ (trueIdxs (fastbool surf lev ty ++ fastbool surf lev ty)).length := by
    set fb := fastbool surf lev ty with hfb
    have hm1 : j0 ∈ trueIdxs (fb ++ fb) := by
      rw [mem_trueIdxs]
      constructor
      · rw [List.length_append]; omega
      · rw [List.getD_eq_getElem?_getD,
          List.getElem?_eq_getElem (by rw [List.length_append]; omega), Option.getD_some,
          List.getElem_append_left (by omega)]
        rw [List.getD_eq_getElem?_getD, List.getElem?_eq_getElem (by omega),
          Option.getD_some] at hfb0
        exact hfb0
    have hm2 : fb.length + j0 ∈ trueIdxs (fb ++ fb) := by
      rw [mem_trueIdxs]
      constructor
      · rw [List.length_append]; omega
      · rw [List.getD_eq_getElem?_getD,
          List.getElem?_eq_getElem (by rw [List.length_append]; omega), Option.getD_some,
          List.getElem_append_right (by omega)]
        simp only [Nat.add_sub_cancel_left]
        rw [List.getD_eq_getElem?_getD, List.getElem?_eq_getElem (by omega),
          Option.getD_some] at hfb0
        exact hfb0
    exact two_le_length_of_mem_ne _ _ _ hm1 hm2 (by omega)
  simp only [getErrors]
  rw [if_pos hty, if_neg htne, if_neg (by omega)]
  refine ⟨(((trueIdxs (lagbool surf lev ty)).getLastD 0 : ℤ)
      - ((trueIdxs (lagbool surf lev ty)).headD 0 : ℤ) + 1 : ℤ)
        * (l1 - l0) * (1 / 4), ?_⟩
  refine congrArg some (Prod.ext ?_ rfl)
  rw [← doubling_computes_shortestCyclicArc (fastbool surf lev ty) hfbne]
  simp only [List.getD_cons_succ, List.getD_cons_zero]

set_option maxRecDepth 100000 in
/-- Witness for C3 at the seam example from the claim: a one-row,
90-column surface flagged exactly at columns `{0, 1, 88, 89}`, whose
confidence region wraps the seam into one contiguous 4-wide arc. -/
theorem getErrors_fast_shortest_cyclic_arc_witness :
    shortestCyclicArc (fastbool
      [(List.range 90).map (fun j => if j < 2 ∨ 88 ≤ j then (1 : ℚ) else 0)] 1 "max") = 4 ∧
    2 ≤ ([0, 1] : List ℚ).length ∧ 2 ≤ ([0, 1] : List ℚ).length ∧
    ("max" = "max" ∨ "max" = "min") ∧
    (∀ row ∈ [(List.range 90).map (fun j => if j < 2 ∨ 88 ≤ j then (1 : ℚ) else 0)],
      row.length = ncols [(List.range 90).map (fun j => if j < 2 ∨ 88 ≤ j then (1 : ℚ) else 0)]) ∧
    (∃ i, i < nrows [(List.range 90).map (fun j => if j < 2 ∨ 88 ≤ j then (1 : ℚ) else 0)] ∧
      ∃ j, j < ncols [(List.range 90).map (fun j => if j < 2 ∨ 88 ≤ j then (1 : ℚ) else 0)] ∧
      confCell "max" 1
        (cell [(List.range 90).map (fun j => if j < 2 ∨ 88 ≤ j then (1 : ℚ) else 0)] i j)
        = true) ∧
    (∃ fdl : ℚ,
      getErrors [0, 1] [0, 1]
          [(List.range 90).map (fun j => if j < 2 ∨ 88 ≤ j then (1 : ℚ) else 0)] 1 "max" =
        some (((shortestCyclicArc (fastbool
            [(List.range 90).map (fun j => if j < 2 ∨ 88 ≤ j then (1 : ℚ) else 0)] 1 "max") : ℕ) : ℚ)
          * (([0, 1] : List ℚ).getD 1 0 - ([0, 1] : List ℚ).getD 0 0) * (1 / 4), fdl)) :=
  ⟨by with_unfolding_all rfl,
    by norm_num, by norm_num, Or.inl rfl, by decide,
    ⟨0, by decide, 0, by decide, by with_unfolding_all rfl⟩,
    getErrors_fast_shortest_cyclic_arc [0, 1] [0, 1]
      [(List.range 90).map (fun j => if j < 2 ∨ 88 ≤ j then (1 : ℚ) else 0)] 1 "max"
      (by norm_num) (by norm_num) (Or.inl rfl) (by decide)
      ⟨0, by decide, 0, by decide, by with_unfolding_all rfl⟩⟩

end Splitwave
